import Mathlib

/-!
Shallow embedding of the stackrankdice game logic.

The repository has three source files: `game.rs` (board generation),
`events.rs` (combat resolution, turn advancement and win detection — the
authoritative state machine) and `main.rs` (an older copy of the event
handlers). The newer `game.rs` module items referenced by `events.rs`
(`GameState`, `GameLogEntry`, the `Region` carrying `id`/`num_dice`, and
`Region::is_opponent`) and the `hex.rs` module are not part of the snapshot;
those few definitions are modelled from the specification and marked as such.
All algorithmic code is translated directly from the Rust sources.
-/

namespace StackRankDice

set_option maxRecDepth 100000

/-- Coordinate of one hex cell, as the `(isize, isize)` pairs used by the code. -/
abbrev Coord := Int × Int

/-- Axial hex coordinate, mirroring `HexCoord { q, r }` used via `hex.rs`. -/
structure HexCoord where
  q : Int
  r : Int
deriving DecidableEq, Inhabited

/-- Modelled from the spec: `hex.rs` is not in the snapshot. Spec §4.1: the six
axial-adjacent coordinates of a hex, in a fixed deterministic order. -/
def HexCoord.neighbors (h : HexCoord) : List HexCoord :=
  [⟨h.q + 1, h.r⟩, ⟨h.q + 1, h.r - 1⟩, ⟨h.q, h.r - 1⟩,
   ⟨h.q - 1, h.r⟩, ⟨h.q - 1, h.r + 1⟩, ⟨h.q, h.r + 1⟩]

/-- Neighbor coordinates of a coordinate pair, as the code's
`HexCoord::new(c.0, c.1).neighbors()` composed with reading `(n.q, n.r)`. -/
def hexNeighbors (c : Coord) : List Coord :=
  (HexCoord.mk c.1 c.2).neighbors.map (fun h => (h.q, h.r))

/-- Rust `rng.gen_range(lo..hi)` on unsigned integers, with the random draw made
explicit: the draw `n` selects `lo + n % (hi - lo)`. Requires `lo < hi` in Rust. -/
def genRangeNat (lo hi n : Nat) : Nat := lo + n % (hi - lo)

/-- Rust `rng.gen_range(lo..hi)` on `isize`, with the random draw made explicit. -/
def genRangeInt (lo hi : Int) (n : Nat) : Int := lo + Int.ofNat (n % (hi - lo).toNat)

/-- In-place update of a vector element, as Rust `v[i] = ...` / `v[i].f = ...`. -/
def modifyAt {α : Type} (xs : List α) (i : Nat) (f : α → α) : List α :=
  match xs, i with
  | [], _ => []
  | x :: t, 0 => f x :: t
  | x :: t, n + 1 => x :: modifyAt t n f

/-- Modelled from the spec: the newer `game.rs` `Region` (not in the snapshot) as
used by `events.rs`: a stable `id` into the board's region list, the hexes of the
territory, the owning player and the current dice count (§3 of the spec). -/
structure Region where
  id : Nat
  hexes : List Coord
  owner : Nat
  num_dice : Nat
deriving DecidableEq, Inhabited

/-- Modelled from the spec: `Region::is_opponent` is not in the snapshot. Spec
§4.3: region A may attack region B iff `A.owner ≠ B.owner` and some hex in A is a
grid-neighbor of some hex in B. -/
def Region.is_opponent (self other : Region) : Bool :=
  (self.owner != other.owner) &&
    self.hexes.any (fun c => (hexNeighbors c).any (fun nb => other.hexes.contains nb))

/-- Payload of `EventPlayerMoveEnd` from `events.rs`: snapshots of the two
clashing regions and the individual die faces rolled for each side. -/
structure MoveEndEvent where
  player_1 : Nat
  player_2 : Nat
  region_1 : Region
  region_2 : Region
  region_1_dice_result : List Nat
  region_2_dice_result : List Nat
deriving DecidableEq, Inhabited

/-- Modelled from the spec: the `GameLogEntry` struct lives in the missing newer
`game.rs`; its fields are exactly those populated by `event_player_move_start`. -/
structure GameLogEntry where
  turn_of_player : Nat
  region_1 : Region
  region_2 : Region
  region_1_dice_result : List Nat
  region_2_dice_result : List Nat
  turn_counter : Nat
deriving DecidableEq, Inhabited

/-- Board as seen by the state machine: only its `regions` vector is read. -/
structure GameBoard where
  regions : List Region
deriving DecidableEq, Inhabited

/-- Modelled from the spec: the `GameState` struct lives in the missing newer
`game.rs`; its fields are exactly those initialized in `main` and used by
`events.rs` (§3 of the spec). -/
structure GameState where
  board : GameBoard
  number_of_players : Nat
  turn_of_player : Nat
  turn_counter : Nat
  game_log : List GameLogEntry
deriving DecidableEq, Inhabited

/-- Combat resolution step of `event_player_move_end` (`events.rs` lines
218-244), with the single reinforcement random draw `rnd` made explicit. The
loser's region takes the winner's owner; if the winner's snapshot shows more
than one die, the captured region's dice are redrawn from `[1, winner_dice)` and
the winner's region loses `captured - 1` dice. Ties fall into the `else` branch. -/
def resolveCombat (rs : List Region) (e : MoveEndEvent) (rnd : Nat) : List Region :=
  let result_1 := e.region_1_dice_result.sum
  let result_2 := e.region_2_dice_result.sum
  if result_1 > result_2 then
    let rs1 := modifyAt rs e.region_2.id (fun r => { r with owner := e.region_1.owner })
    if e.region_1.num_dice > 1 then
      let rs2 := modifyAt rs1 e.region_2.id
        (fun r => { r with num_dice := genRangeNat 1 e.region_1.num_dice rnd })
      modifyAt rs2 e.region_1.id
        (fun r => { r with num_dice := r.num_dice - ((rs2.getD e.region_2.id default).num_dice - 1) })
    else rs1
  else
    let rs1 := modifyAt rs e.region_1.id (fun r => { r with owner := e.region_2.owner })
    if e.region_2.num_dice > 1 then
      let rs2 := modifyAt rs1 e.region_1.id
        (fun r => { r with num_dice := genRangeNat 1 e.region_2.num_dice rnd })
      modifyAt rs2 e.region_2.id
        (fun r => { r with num_dice := r.num_dice - ((rs2.getD e.region_1.id default).num_dice - 1) })
    else rs1

/-- The regions the current player moved this turn: `region_1` of each
`game_log` entry whose turn context matches the current one (`events.rs` 254-262). -/
def regionsMadeMoveThisTurn (gs : GameState) : List Region :=
  (gs.game_log.filter (fun gl =>
    (gl.turn_counter == gs.turn_counter) && (gl.turn_of_player == gs.turn_of_player))).map
    (fun gl => gl.region_1)

/-- The current player's regions that have not yet moved this turn
(`events.rs` 264-271). -/
def regionsAbleToMoveThisTurn (gs : GameState) : List Region :=
  gs.board.regions.filter (fun gl =>
    (gl.owner == gs.turn_of_player) &&
      ((regionsMadeMoveThisTurn gs).filter (fun r => r.id == gl.id)).length == 0)

/-- Count of not-yet-moved regions of the current player that still have an
opponent-adjacent region (`events.rs` 274-284). -/
def numberOfUnblockedRegions (gs : GameState) : Nat :=
  ((regionsAbleToMoveThisTurn gs).filter (fun r1 =>
    (gs.board.regions.filter (fun r2 => r2.is_opponent r1)).length > 0)).length

/-- Turn-advancement step of `event_player_move_end` (`events.rs` 286-301): when
no unblocked region remains, the player index is incremented, wrapped to 0 at
`number_of_players`, and the turn counter is incremented. -/
def advanceTurn (gs : GameState) : GameState :=
  if numberOfUnblockedRegions gs = 0 then
    let t1 := gs.turn_of_player + 1
    let t2 := if t1 ≥ gs.number_of_players then 0 else t1
    { gs with turn_of_player := t2, turn_counter := gs.turn_counter + 1 }
  else gs

/-- Number of regions owned by player `p`, as tallied by `regions_by_player`
(`events.rs` 304-308). -/
def countOwned (rs : List Region) (p : Nat) : Nat :=
  (rs.filter (fun r => r.owner == p)).length

/-- Win detection of `event_player_move_end` (`events.rs` 310-315): a player
appearing as an owner whose region count equals the total region count wins. -/
def gameOverWinner (rs : List Region) : Option Nat :=
  (rs.map (fun r => r.owner)).find? (fun p => countOwned rs p == rs.length)

/-- Board mutation part of one `EventPlayerMoveEnd` on the game state. -/
def resolveGS (gs : GameState) (e : MoveEndEvent) (rnd : Nat) : GameState :=
  { gs with board := ⟨resolveCombat gs.board.regions e rnd⟩ }

/-- One full pass of `event_player_move_end` for a single event: combat
resolution, then turn advancement, then win detection. Returns the new state and
the winner of the `EventGameOver` event when one fires. -/
def playerMoveEnd (gs : GameState) (e : MoveEndEvent) (rnd : Nat) :
    GameState × Option Nat :=
  let gs1 := resolveGS gs e rnd
  let gs2 := advanceTurn gs1
  (gs2, gameOverWinner gs2.board.regions)

/-- Total dice held by the two clashing regions, read off the board. -/
def pairDiceSum (rs : List Region) (e : MoveEndEvent) : Nat :=
  (rs.getD e.region_1.id default).num_dice + (rs.getD e.region_2.id default).num_dice

/-- Payload of `RegionClashEventEnd` from the older handler in `main.rs`
(lines 478-483): region snapshots and the two pre-summed dice results. -/
structure ClashEndEvent where
  region1 : Region
  region2 : Region
  dice_1_sum : Nat
  dice_2_sum : Nat
deriving DecidableEq, Inhabited

/-- Combat resolution of the older `event_region_clash_end` (`main.rs` lines
584-601). It differs from `events.rs` in subtracting the full captured dice
count (no `- 1`) from the winner. Ties likewise fall into the `else` branch. -/
def resolveClashEndMain (rs : List Region) (e : ClashEndEvent) (rnd : Nat) :
    List Region :=
  if e.dice_1_sum > e.dice_2_sum then
    let rs1 := modifyAt rs e.region2.id (fun r => { r with owner := e.region1.owner })
    if e.region1.num_dice > 1 then
      let rs2 := modifyAt rs1 e.region2.id
        (fun r => { r with num_dice := genRangeNat 1 e.region1.num_dice rnd })
      modifyAt rs2 e.region1.id
        (fun r => { r with num_dice := r.num_dice - (rs2.getD e.region2.id default).num_dice })
    else rs1
  else
    let rs1 := modifyAt rs e.region1.id (fun r => { r with owner := e.region2.owner })
    if e.region2.num_dice > 1 then
      let rs2 := modifyAt rs1 e.region1.id
        (fun r => { r with num_dice := genRangeNat 1 e.region2.num_dice rnd })
      modifyAt rs2 e.region2.id
        (fun r => { r with num_dice := r.num_dice - (rs2.getD e.region1.id default).num_dice })
    else rs1

/-! Board generation (`game.rs`). Randomness is made explicit as a stream of
natural-number draws, consumed left to right; an exhausted stream yields 0. The
`HashMap<(isize, isize), usize>` occupancy map is embedded as an association
list where insertion prepends (so a later binding shadows an earlier one, as
`HashMap::insert` replaces). -/

/-- Occupancy map from hex coordinate to owning player. -/
abbrev HexMap := List (Coord × Nat)

/-- Lookup in the occupancy map (`board.hexes.get(&c)`). -/
def hmLookup (m : HexMap) (c : Coord) : Option Nat :=
  (m.find? (fun e => e.1 == c)).map (fun e => e.2)

/-- Insertion into the occupancy map (`hexes.insert(c, player)`). -/
def hmInsert (m : HexMap) (c : Coord) (v : Nat) : HexMap := (c, v) :: m

/-- Explicit stream of random draws. -/
abbrev Rng := List Nat

/-- Pop the next draw off the stream (0 once exhausted). -/
def rngNext : Rng → Nat × Rng
  | [] => (0, [])
  | n :: t => (n, t)

/-- Rust `patch_hexes.iter().choose_multiple(&mut rng, patch_hexes.iter().len())`:
rand 0.8 implements `choose_multiple` by reservoir sampling — it fills the
reservoir with the first `amount` elements and only afterwards starts drawing
random replacement indices. With `amount` equal to the iterator's length the
replacement loop never runs, so the call returns the whole list in iterator
(insertion) order and consumes no randomness. -/
def chooseMultiple (xs : List Coord) (rng : Rng) : List Coord × Rng := (xs, rng)

/-- Working state of the patch-growth loop: the tentative patch, the tentative
occupancy snapshot `hex_snapshot`, and the remaining random stream. -/
structure GrowState where
  patch : List Coord
  snap : HexMap
  rng : Rng
deriving DecidableEq, Inhabited

/-- One iteration of the growth `for` loop (`game.rs` lines 93-131): permute the
patch, take the first hex with a free neighbor, and add one of that hex's free
neighbors (chosen by a draw) to the patch and the snapshot. Returns `false` when
no patch hex has a free neighbor (the loop's early `break`). -/
def growStep (player : Nat) (st : GrowState) : GrowState × Bool :=
  let pm := chooseMultiple st.patch st.rng
  match pm.1.find? (fun c => (hexNeighbors c).any (fun nb => (hmLookup st.snap nb).isNone)) with
  | none => (⟨st.patch, st.snap, pm.2⟩, false)
  | some b =>
    let candidates := (hexNeighbors b).filter (fun nb => (hmLookup st.snap nb).isNone)
    let p := rngNext pm.2
    let cand := candidates.getD (p.1 % candidates.length) (0, 0)
    (⟨st.patch ++ [cand], hmInsert st.snap cand player, p.2⟩, true)

/-- The growth `for` loop, run up to `patch_size` times with early exit. -/
def growLoop (player : Nat) : Nat → GrowState → GrowState
  | 0, st => st
  | k + 1, st =>
    let r := growStep player st
    if r.2 then growLoop player k r.1 else r.1

/-- Region as defined in the snapshot's `game.rs` (no `id` field): the hexes of
the patch, the owning player and the allocated dice. -/
structure GenRegion where
  hexes : List Coord
  owner : Nat
  number_of_dice : Nat
deriving DecidableEq, Inhabited

/-- Board as defined in the snapshot's `game.rs`: occupancy map plus regions. -/
structure GenBoard where
  hexes : HexMap
  regions : List GenRegion
deriving DecidableEq, Inhabited

/-- `BOARD_SIZE` (`game.rs` line 9). -/
def BOARD_SIZE : Int := 20

/-- `HALF_BOARD_SIZE` (`game.rs` line 58). -/
def HALF_BOARD_SIZE : Int := BOARD_SIZE / 2 - 1

/-- `NUMBER_OF_PATCHES` (`game.rs` line 11). -/
def NUMBER_OF_PATCHES : Nat := 16

/-- `patch_size` (`game.rs` lines 60-61): integer division of the board area by
twice the total patch count. -/
def patchSizeOf (number_of_players : Nat) : Nat :=
  400 / (NUMBER_OF_PATCHES * number_of_players * 2)

/-- One coordinate component of a seed pick:
`rng.gen_range(-HALF_BOARD_SIZE..HALF_BOARD_SIZE)` (`game.rs` lines 77-80). -/
def drawSeedCoord (n : Nat) : Int := genRangeInt (-HALF_BOARD_SIZE) HALF_BOARD_SIZE n

/-- Outcome of one `(patch, player)` slot of the generation loops: a committed
board, a silent skip (the `break` taken when the grown patch has exactly one
hex), or exhausted retry fuel. -/
inductive SlotResult where
  | committed (b : GenBoard) (rng : Rng)
  | skipped (rng : Rng)
  | fuelOut
deriving DecidableEq, Inhabited

/-- One `(patch, player)` slot of `generate_board` (`game.rs` lines 66-166): the
two nested retry `while` loops collapsed to a fueled recursion. Each recursive
call is one fresh attempt (occupied seed, or grown patch without board
neighbors). A grown patch of size 1 exits both loops without committing, since
`is_starting_point_valid` is already true at that point. -/
def placePatchGo (player : Nat) (patchSize : Nat) (isFirst : Bool)
    (board : GenBoard) : Nat → Rng → SlotResult
  | 0, _ => .fuelOut
  | fuel + 1, rng =>
    let p1 := rngNext rng
    let p2 := rngNext p1.2
    let c : Coord := (drawSeedCoord p1.1, drawSeedCoord p2.1)
    if (hmLookup board.hexes c).isSome then
      placePatchGo player patchSize isFirst board fuel p2.2
    else
      let st := growLoop player patchSize ⟨[c], hmInsert board.hexes c player, p2.2⟩
      if st.patch.length == 1 then .skipped st.rng
      else
        let hasNb := st.patch.any (fun ph =>
          (hexNeighbors ph).any (fun nb => (hmLookup board.hexes nb).isSome)) || isFirst
        if hasNb then
          .committed ⟨st.snap, board.regions ++ [⟨st.patch, player, 0⟩]⟩ st.rng
        else
          placePatchGo player patchSize isFirst board fuel st.rng

/-- Outcome of running all generation slots. -/
inductive GenResult where
  | done (b : GenBoard) (rng : Rng)
  | fuelOut
deriving DecidableEq, Inhabited

/-- The nested `for patch in 0..NUMBER_OF_PATCHES { for player in 0..n }` loops
of `generate_board`, processing one slot after the other. -/
def runSlots (patchSize fuel : Nat) : List (Nat × Nat) → GenBoard → Rng → GenResult
  | [], b, rng => .done b rng
  | (patchIdx, player) :: rest, b, rng =>
    match placePatchGo player patchSize ((patchIdx == 0) && (player == 0)) b fuel rng with
    | .committed b' rng' => runSlots patchSize fuel rest b' rng'
    | .skipped rng' => runSlots patchSize fuel rest b rng'
    | .fuelOut => .fuelOut

/-- The slot sequence of the nested generation loops: patch index outer, player
index inner. -/
def slotList (n : Nat) : List (Nat × Nat) :=
  (List.range NUMBER_OF_PATCHES).flatMap (fun patch =>
    (List.range n).map (fun player => (patch, player)))

/-- Per-player dice budgets, an embedding of the `dice_budget` HashMap. -/
abbrev Budget := List (Nat × Nat)

/-- Lookup in the budget map (`dice_budget[&owner]`; `None` would be a Rust
index panic). -/
def budLookup (m : Budget) (p : Nat) : Option Nat :=
  (m.find? (fun e => e.1 == p)).map (fun e => e.2)

/-- Budget update (`dice_budget.insert(owner, v)`). -/
def budInsert (m : Budget) (p v : Nat) : Budget := (p, v) :: m

/-- Initial budgets (`game.rs` lines 171-174): `NUMBER_OF_PATCHES * 4` dice per
player. -/
def initBudget (n : Nat) : Budget :=
  (List.range n).map (fun p => (p, NUMBER_OF_PATCHES * 4))

/-- Dice allocation loop (`game.rs` lines 176-182): each region in placement
order draws `gen_range(1..min(4, budget[owner]))` dice and the owner's budget
shrinks by that amount. `none` models a Rust panic: a missing budget key, or an
empty random range (`min(4, budget) ≤ 1`). -/
def allocGo : List GenRegion → Budget → Rng → Option (List GenRegion × Budget × Rng)
  | [], budget, rng => some ([], budget, rng)
  | r :: rest, budget, rng =>
    match budLookup budget r.owner with
    | none => none
    | some b =>
      if 1 < Nat.min 4 b then
        let p := rngNext rng
        let d := genRangeNat 1 (Nat.min 4 b) p.1
        match allocGo rest (budInsert budget r.owner (b - d)) p.2 with
        | none => none
        | some (rs, bud, rng') => some ({ r with number_of_dice := d } :: rs, bud, rng')
      else none

/-- `generate_board` (`game.rs` lines 57-185): run all slots, then allocate
dice. `none` models non-termination fuel exhaustion or an allocation panic. -/
def generateBoard (n fuel : Nat) (rng : Rng) : Option (GenBoard × Rng) :=
  match runSlots (patchSizeOf n) fuel (slotList n) ⟨[], []⟩ rng with
  | .fuelOut => none
  | .done b rng' =>
    match allocGo b.regions (initBudget n) rng' with
    | none => none
    | some (rs, _, rng'') => some (⟨b.hexes, rs⟩, rng'')

/-! Derived predicates used to state the claims about generation. -/

/-- A coordinate is occupied in an occupancy map. -/
def occupiedIn (m : HexMap) (c : Coord) : Prop := (hmLookup m c).isSome = true

/-- All hexes of all regions, in region order. -/
def regionHexes (rs : List GenRegion) : List Coord := (rs.map (fun r => r.hexes)).flatten

/-- The occupancy map and the region list describe the same hex set. -/
def coversInv (b : GenBoard) : Prop :=
  ∀ c, occupiedIn b.hexes c ↔ c ∈ regionHexes b.regions

/-- Every region but the first has a hex adjacent to a hex of an earlier region. -/
def adjInv (b : GenBoard) : Prop :=
  ∀ i, i < b.regions.length → 1 ≤ i →
    ∃ c ∈ (b.regions.getD i default).hexes, ∃ nb ∈ hexNeighbors c,
      nb ∈ regionHexes (b.regions.take i)

/-- Every element of the list past the head is a hex-neighbor of some earlier
element (the patch is built by flood growth). -/
def chainOk (l : List Coord) : Prop :=
  ∀ i, i < l.length → 1 ≤ i →
    ∃ j, j < i ∧ l.getD i (0, 0) ∈ hexNeighbors (l.getD j (0, 0))

/-- Number of regions owned by player `p` in a generator region list. -/
def ownerCount (rs : List GenRegion) (p : Nat) : Nat :=
  (rs.filter (fun r => r.owner == p)).length

/-! Concrete inputs used by counterexamples and witnesses. -/

/-- Two-region board: region 0 (player 0, 3 dice) and region 1 (player 1, 2 dice). -/
def rsC2 : List Region := [⟨0, [(0, 0)], 0, 3⟩, ⟨1, [(1, 0)], 1, 2⟩]

/-- Clash where region 0 rolls 6+4=10 against region 1's 3+4=7. -/
def eC2 : MoveEndEvent :=
  ⟨0, 1, ⟨0, [(0, 0)], 0, 3⟩, ⟨1, [(1, 0)], 1, 2⟩, [6, 4], [3, 4]⟩

/-- Two-region board for the C1 witness. -/
def rsC1 : List Region := [⟨0, [(0, 0)], 0, 3⟩, ⟨1, [(1, 0)], 1, 2⟩]

/-- Clash for the C1 witness: attacker sum 10 against defender sum 7. -/
def eC1 : MoveEndEvent :=
  ⟨0, 1, ⟨0, [(0, 0)], 0, 3⟩, ⟨1, [(1, 0)], 1, 2⟩, [6, 4], [3, 4]⟩

/-- Two-region board for the C9 witness. -/
def rsC9 : List Region := [⟨0, [(0, 0)], 0, 2⟩, ⟨1, [(1, 0)], 1, 3⟩]

/-- Tied clash for the C9 witness: both sides sum to 7. -/
def eC9 : MoveEndEvent :=
  ⟨0, 1, ⟨0, [(0, 0)], 0, 2⟩, ⟨1, [(1, 0)], 1, 3⟩, [3, 4], [6, 1]⟩

/-- Two-region board for the C2-amended witness. -/
def rsC2w : List Region := [⟨0, [(0, 0)], 0, 4⟩, ⟨1, [(1, 0)], 1, 3⟩]

/-- Clash for the C2-amended witness: attacker sum 9 against defender sum 5. -/
def eC2w : MoveEndEvent :=
  ⟨0, 1, ⟨0, [(0, 0)], 0, 4⟩, ⟨1, [(1, 0)], 1, 3⟩, [5, 4], [2, 3]⟩

/-- Explicit random stream for an eight-player generation run: three small
patches are committed, after which the free cell `(0,0)` is walled in by its six
occupied neighbors; every following seed pick lands on `(0,0)`, the patch fails
to grow past one hex and the slot is silently dropped. Each committed slot
consumes two seed draws and one candidate draw; a dropped slot consumes only
its two seed draws (the singleton border scan finds no free neighbor). -/
def trace8 : Rng :=
  [10, 9, 2, 9, 8, 3, 9, 10, 2] ++
    (List.replicate 125 [9, 9]).flatten ++ [0, 0, 0]

/-- Board produced by the slot phase of `trace8`: 3 committed regions instead
of the 128 slots the loops iterate over. -/
def board8 : GenBoard :=
  ⟨[((-1, 1), 2), ((0, 1), 2), ((-1, 0), 1), ((0, -1), 1), ((1, -1), 0), ((1, 0), 0)],
   [⟨[(1, 0), (1, -1)], 0, 0⟩, ⟨[(0, -1), (-1, 0)], 1, 0⟩, ⟨[(0, 1), (-1, 1)], 2, 0⟩]⟩

/-- Explicit random stream for a four-player generation run that escapes the
claimed board extent on the negative side, where seeds reach `q = -9`. Two
patches grown from seeds `(-9,1)` and `(-8,-1)` wall in the cell `(-9,0)`
(placing among others the `q = -10` cell `(-10,1)` as a direct neighbor of the
seed `(-9,1)`); the third patch then seeds at `(-9,0)`, whose only free
neighbor is `(-10,0)`, so the insertion-order border scan is forced down the
corridor `(-9,0) → (-10,0)` and from the border `(-10,0)` adds `(-11,0)` —
outside the side-20 square. Two further patches wall in the free cell
`(-8,-2)` and the remaining 59 slots are dropped on it. -/
def trace4 : Rng :=
  [0, 10, 1, 2, 0,
   1, 8, 3, 0, 0,
   0, 9, 0, 1, 0,
   0, 7, 1, 1, 1,
   2, 6, 0, 0, 0] ++
    (List.replicate 59 [1, 7]).flatten ++ [0, 0, 0, 0, 0]

/-- The full board generated from `trace4`, dice allocated. Its third region
reaches the hex `(-11, 0)`. -/
def finalBoard4 : GenBoard :=
  ⟨[((-7, -4), 0), ((-6, -4), 0), ((-6, -3), 0), ((-7, -3), 0), ((-10, -2), 3),
    ((-9, -3), 3), ((-8, -3), 3), ((-9, -2), 3), ((-10, -1), 2), ((-11, 0), 2),
    ((-10, 0), 2), ((-9, 0), 2), ((-7, -2), 1), ((-7, -1), 1), ((-9, -1), 1),
    ((-8, -1), 1), ((-8, 1), 0), ((-10, 1), 0), ((-8, 0), 0), ((-9, 1), 0)],
   [⟨[(-9, 1), (-8, 0), (-10, 1), (-8, 1)], 0, 1⟩,
    ⟨[(-8, -1), (-9, -1), (-7, -1), (-7, -2)], 1, 1⟩,
    ⟨[(-9, 0), (-10, 0), (-11, 0), (-10, -1)], 2, 1⟩,
    ⟨[(-9, -2), (-8, -3), (-9, -3), (-10, -2)], 3, 1⟩,
    ⟨[(-7, -3), (-6, -3), (-6, -4), (-7, -4)], 0, 1⟩]⟩

/-! Helper lemmas. -/

theorem length_modifyAt {α : Type} (xs : List α) (i : Nat) (f : α → α) :
    (modifyAt xs i f).length = xs.length := by
  induction xs generalizing i with
  | nil => rfl
  | cons x t ih => cases i <;> simp [modifyAt, ih]

theorem getD_modifyAt_self {α : Type} (xs : List α) (i : Nat) (f : α → α) (d : α)
    (h : i < xs.length) : (modifyAt xs i f).getD i d = f (xs.getD i d) := by
  induction xs generalizing i with
  | nil => simp at h
  | cons x t ih =>
    cases i with
    | zero => simp [modifyAt]
    | succ n =>
      simp only [modifyAt, List.getD_cons_succ]
      exact ih n (by simpa using h)

theorem getD_modifyAt_ne {α : Type} (xs : List α) (i j : Nat) (f : α → α) (d : α)
    (h : i ≠ j) : (modifyAt xs i f).getD j d = xs.getD j d := by
  induction xs generalizing i j with
  | nil => rfl
  | cons x t ih =>
    cases i with
    | zero =>
      cases j with
      | zero => exact absurd rfl h
      | succ m => simp [modifyAt]
    | succ n =>
      cases j with
      | zero => simp [modifyAt]
      | succ m =>
        simp only [modifyAt, List.getD_cons_succ]
        exact ih n m (fun hnm => h (by omega))

theorem genRangeNat_le (lo hi n : Nat) : lo ≤ genRangeNat lo hi n :=
  Nat.le_add_right lo (n % (hi - lo))

theorem genRangeNat_lt (lo hi n : Nat) (h : lo < hi) : genRangeNat lo hi n < hi := by
  have := Nat.mod_lt n (show 0 < hi - lo by omega)
  unfold genRangeNat
  omega

theorem resolveCombat_length (rs : List Region) (e : MoveEndEvent) (rnd : Nat) :
    (resolveCombat rs e rnd).length = rs.length := by
  unfold resolveCombat
  by_cases hs : e.region_2_dice_result.sum < e.region_1_dice_result.sum
  · rw [if_pos hs]
    by_cases hw : 1 < e.region_1.num_dice
    · rw [if_pos hw, length_modifyAt, length_modifyAt, length_modifyAt]
    · rw [if_neg hw, length_modifyAt]
  · rw [if_neg hs]
    by_cases hw : 1 < e.region_2.num_dice
    · rw [if_pos hw, length_modifyAt, length_modifyAt, length_modifyAt]
    · rw [if_neg hw, length_modifyAt]

/-- Computed shape of the `result_1 > result_2` branch with a reinforcing winner. -/
theorem resolve_win1 (rs : List Region) (e : MoveEndEvent) (rnd : Nat)
    (h1 : e.region_1.id < rs.length) (h2 : e.region_2.id < rs.length)
    (hne : e.region_1.id ≠ e.region_2.id)
    (hs : e.region_2_dice_result.sum < e.region_1_dice_result.sum)
    (hw : 1 < e.region_1.num_dice) :
    (resolveCombat rs e rnd).getD e.region_2.id default =
      { rs.getD e.region_2.id default with
          owner := e.region_1.owner, num_dice := genRangeNat 1 e.region_1.num_dice rnd } ∧
    (resolveCombat rs e rnd).getD e.region_1.id default =
      { rs.getD e.region_1.id default with
          num_dice := (rs.getD e.region_1.id default).num_dice -
            (genRangeNat 1 e.region_1.num_dice rnd - 1) } ∧
    ∀ j, j ≠ e.region_1.id → j ≠ e.region_2.id →
      (resolveCombat rs e rnd).getD j default = rs.getD j default := by
  have h2' : e.region_2.id <
      (modifyAt rs e.region_2.id (fun r => { r with owner := e.region_1.owner })).length := by
    rw [length_modifyAt]; exact h2
  have hc : ((modifyAt (modifyAt rs e.region_2.id
      (fun r => { r with owner := e.region_1.owner })) e.region_2.id
      (fun r => { r with num_dice := genRangeNat 1 e.region_1.num_dice rnd })).getD
        e.region_2.id default) =
      { rs.getD e.region_2.id default with
          owner := e.region_1.owner, num_dice := genRangeNat 1 e.region_1.num_dice rnd } := by
    rw [getD_modifyAt_self _ _ _ _ h2', getD_modifyAt_self _ _ _ _ h2]
  unfold resolveCombat
  rw [if_pos hs, if_pos hw]
  refine ⟨?_, ?_, ?_⟩
  · rw [getD_modifyAt_ne _ _ _ _ _ hne, hc]
  · have h1' : e.region_1.id <
        (modifyAt (modifyAt rs e.region_2.id
          (fun r => { r with owner := e.region_1.owner })) e.region_2.id
          (fun r => { r with num_dice := genRangeNat 1 e.region_1.num_dice rnd })).length := by
      rw [length_modifyAt, length_modifyAt]; exact h1
    rw [getD_modifyAt_self _ _ _ _ h1', hc,
      getD_modifyAt_ne _ _ _ _ _ (Ne.symm hne), getD_modifyAt_ne _ _ _ _ _ (Ne.symm hne)]
  · intro j hj1 hj2
    rw [getD_modifyAt_ne _ _ _ _ _ (Ne.symm hj1), getD_modifyAt_ne _ _ _ _ _ (Ne.symm hj2),
      getD_modifyAt_ne _ _ _ _ _ (Ne.symm hj2)]

/-- Computed shape of the `result_1 > result_2` branch with a one-die winner. -/
theorem resolve_win1_one (rs : List Region) (e : MoveEndEvent) (rnd : Nat)
    (h2 : e.region_2.id < rs.length)
    (hs : e.region_2_dice_result.sum < e.region_1_dice_result.sum)
    (hw : ¬ 1 < e.region_1.num_dice) :
    (resolveCombat rs e rnd).getD e.region_2.id default =
      { rs.getD e.region_2.id default with owner := e.region_1.owner } ∧
    ∀ j, j ≠ e.region_2.id →
      (resolveCombat rs e rnd).getD j default = rs.getD j default := by
  unfold resolveCombat
  rw [if_pos hs, if_neg hw]
  constructor
  · rw [getD_modifyAt_self _ _ _ _ h2]
  · intro j hj
    rw [getD_modifyAt_ne _ _ _ _ _ (Ne.symm hj)]

/-- Computed shape of the `else` branch (defender wins, ties included) with a
reinforcing winner. -/
theorem resolve_win2 (rs : List Region) (e : MoveEndEvent) (rnd : Nat)
    (h1 : e.region_1.id < rs.length) (h2 : e.region_2.id < rs.length)
    (hne : e.region_1.id ≠ e.region_2.id)
    (hs : ¬ e.region_2_dice_result.sum < e.region_1_dice_result.sum)
    (hw : 1 < e.region_2.num_dice) :
    (resolveCombat rs e rnd).getD e.region_1.id default =
      { rs.getD e.region_1.id default with
          owner := e.region_2.owner, num_dice := genRangeNat 1 e.region_2.num_dice rnd } ∧
    (resolveCombat rs e rnd).getD e.region_2.id default =
      { rs.getD e.region_2.id default with
          num_dice := (rs.getD e.region_2.id default).num_dice -
            (genRangeNat 1 e.region_2.num_dice rnd - 1) } ∧
    ∀ j, j ≠ e.region_1.id → j ≠ e.region_2.id →
      (resolveCombat rs e rnd).getD j default = rs.getD j default := by
  have h1' : e.region_1.id <
      (modifyAt rs e.region_1.id (fun r => { r with owner := e.region_2.owner })).length := by
    rw [length_modifyAt]; exact h1
  have hc : ((modifyAt (modifyAt rs e.region_1.id
      (fun r => { r with owner := e.region_2.owner })) e.region_1.id
      (fun r => { r with num_dice := genRangeNat 1 e.region_2.num_dice rnd })).getD
        e.region_1.id default) =
      { rs.getD e.region_1.id default with
          owner := e.region_2.owner, num_dice := genRangeNat 1 e.region_2.num_dice rnd } := by
    rw [getD_modifyAt_self _ _ _ _ h1', getD_modifyAt_self _ _ _ _ h1]
  unfold resolveCombat
  rw [if_neg hs, if_pos hw]
  refine ⟨?_, ?_, ?_⟩
  · rw [getD_modifyAt_ne _ _ _ _ _ (Ne.symm hne), hc]
  · have h2' : e.region_2.id <
        (modifyAt (modifyAt rs e.region_1.id
          (fun r => { r with owner := e.region_2.owner })) e.region_1.id
          (fun r => { r with num_dice := genRangeNat 1 e.region_2.num_dice rnd })).length := by
      rw [length_modifyAt, length_modifyAt]; exact h2
    rw [getD_modifyAt_self _ _ _ _ h2', hc,
      getD_modifyAt_ne _ _ _ _ _ hne, getD_modifyAt_ne _ _ _ _ _ hne]
  · intro j hj1 hj2
    rw [getD_modifyAt_ne _ _ _ _ _ (Ne.symm hj2), getD_modifyAt_ne _ _ _ _ _ (Ne.symm hj1),
      getD_modifyAt_ne _ _ _ _ _ (Ne.symm hj1)]

/-- Computed shape of the `else` branch with a one-die winner. -/
theorem resolve_win2_one (rs : List Region) (e : MoveEndEvent) (rnd : Nat)
    (h1 : e.region_1.id < rs.length)
    (hs : ¬ e.region_2_dice_result.sum < e.region_1_dice_result.sum)
    (hw : ¬ 1 < e.region_2.num_dice) :
    (resolveCombat rs e rnd).getD e.region_1.id default =
      { rs.getD e.region_1.id default with owner := e.region_2.owner } ∧
    ∀ j, j ≠ e.region_1.id →
      (resolveCombat rs e rnd).getD j default = rs.getD j default := by
  unfold resolveCombat
  rw [if_neg hs, if_neg hw]
  constructor
  · rw [getD_modifyAt_self _ _ _ _ h1]
  · intro j hj
    rw [getD_modifyAt_ne _ _ _ _ _ (Ne.symm hj)]

theorem occupiedIn_hmInsert (m : HexMap) (c : Coord) (v : Nat) (x : Coord) :
    occupiedIn (hmInsert m c v) x ↔ x = c ∨ occupiedIn m x := by
  unfold occupiedIn hmInsert hmLookup
  rcases eq_or_ne x c with rfl | hne
  · rw [List.find?_cons_of_pos _ (by simp)]
    simp
  · rw [List.find?_cons_of_neg _ (by simpa using Ne.symm hne)]
    simp [hne]

theorem occupiedIn_nil (x : Coord) : ¬ occupiedIn [] x := by
  simp [occupiedIn, hmLookup]

theorem chooseMultiple_subset (xs : List Coord) (rng : Rng) (y : Coord)
    (h : y ∈ (chooseMultiple xs rng).1) : y ∈ xs := h

theorem getD_append_len {α : Type} (l : List α) (c d : α) :
    (l ++ [c]).getD l.length d = c := by
  rw [List.getD_append_right _ _ _ _ (Nat.le_refl _), Nat.sub_self]
  rfl

theorem chainOk_nil : chainOk [] := by
  intro i hi h1i
  simp at hi

theorem chainOk_single (c : Coord) : chainOk [c] := by
  intro i hi h1i
  simp at hi
  omega

theorem chainOk_append (l : List Coord) (cand : Coord) (hl : chainOk l)
    (h : ∃ b ∈ l, cand ∈ hexNeighbors b) : chainOk (l ++ [cand]) := by
  intro i hi h1i
  rw [List.length_append, List.length_singleton] at hi
  by_cases hil : i < l.length
  · obtain ⟨j, hj, hmem⟩ := hl i hil h1i
    exact ⟨j, hj, by
      rw [List.getD_append _ _ _ _ hil, List.getD_append _ _ _ _ (lt_trans hj hil)]
      exact hmem⟩
  · have hieq : i = l.length := by omega
    obtain ⟨b, hb, hcand⟩ := h
    obtain ⟨j, hjlen, hjb⟩ := List.mem_iff_getElem.1 hb
    refine ⟨j, by omega, ?_⟩
    rw [hieq, getD_append_len, List.getD_append _ _ _ _ hjlen,
      List.getD_eq_getElem _ _ hjlen, hjb]
    exact hcand

/-- Shape of a growth step that did not find a border hex: nothing changes but
the random stream. -/
theorem growStep_false (player : Nat) (st : GrowState)
    (h : (growStep player st).2 = false) :
    (growStep player st).1.patch = st.patch ∧ (growStep player st).1.snap = st.snap := by
  simp only [growStep] at h ⊢
  cases hf : (chooseMultiple st.patch st.rng).1.find?
      (fun c => (hexNeighbors c).any (fun nb => (hmLookup st.snap nb).isNone)) with
  | none => exact ⟨rfl, rfl⟩
  | some b => rw [hf] at h; simp at h

/-- Shape of a growth step that found a border hex: one free neighbor of a
patch hex is appended to the patch and inserted into the snapshot. -/
theorem growStep_true (player : Nat) (st : GrowState)
    (h : (growStep player st).2 = true) :
    ∃ b cand, b ∈ st.patch ∧ cand ∈ hexNeighbors b ∧
      (growStep player st).1.patch = st.patch ++ [cand] ∧
      (growStep player st).1.snap = hmInsert st.snap cand player := by
  simp only [growStep] at h ⊢
  cases hf : (chooseMultiple st.patch st.rng).1.find?
      (fun c => (hexNeighbors c).any (fun nb => (hmLookup st.snap nb).isNone)) with
  | none => rw [hf] at h; simp at h
  | some b =>
    have hbmem : b ∈ st.patch :=
      chooseMultiple_subset _ _ _ (List.mem_of_find?_eq_some hf)
    have hbfree := List.find?_some hf
    obtain ⟨nb0, hnb0, hfree0⟩ := List.any_eq_true.1 hbfree
    have hcnonnil :
        (hexNeighbors b).filter (fun nb => (hmLookup st.snap nb).isNone) ≠ [] := by
      intro hcon
      have : nb0 ∈ (hexNeighbors b).filter (fun nb => (hmLookup st.snap nb).isNone) :=
        List.mem_filter.2 ⟨hnb0, hfree0⟩
      rw [hcon] at this
      simp at this
    have hlenpos :
        0 < ((hexNeighbors b).filter (fun nb => (hmLookup st.snap nb).isNone)).length :=
      List.length_pos.2 hcnonnil
    have hidx : (rngNext (chooseMultiple st.patch st.rng).2).1 %
        ((hexNeighbors b).filter (fun nb => (hmLookup st.snap nb).isNone)).length <
        ((hexNeighbors b).filter (fun nb => (hmLookup st.snap nb).isNone)).length :=
      Nat.mod_lt _ hlenpos
    refine ⟨b, _, hbmem, ?_, rfl, rfl⟩
    have hcmem := List.getElem_mem hidx
    rw [← List.getD_eq_getElem _ (0, 0) hidx] at hcmem
    exact List.filter_subset' _ hcmem

theorem growLoop_succ (player k : Nat) (st : GrowState) :
    growLoop player (k + 1) st =
      (if (growStep player st).2 = true then growLoop player k (growStep player st).1
       else (growStep player st).1) := rfl

/-- The growth loop preserves the occupancy description of the snapshot: it is
the base occupancy extended by exactly the patch hexes. -/
theorem growLoop_snapInv (player : Nat) (base : HexMap) (k : Nat) :
    ∀ st : GrowState,
      (∀ x, occupiedIn st.snap x ↔ occupiedIn base x ∨ x ∈ st.patch) →
      ∀ x, occupiedIn (growLoop player k st).snap x ↔
        occupiedIn base x ∨ x ∈ (growLoop player k st).patch := by
  induction k with
  | zero => intro st hinv x; exact hinv x
  | succ k ih =>
    intro st hinv x
    rw [growLoop_succ]
    by_cases hs : (growStep player st).2 = true
    · rw [if_pos hs]
      obtain ⟨b, cand, _, _, hp, hsn⟩ := growStep_true player st hs
      refine ih (growStep player st).1 ?_ x
      intro y
      rw [hp, hsn, occupiedIn_hmInsert, hinv y]
      simp only [List.mem_append, List.mem_singleton]
      tauto
    · rw [if_neg hs]
      obtain ⟨hp, hsn⟩ := growStep_false player st (by simpa using hs)
      rw [hp, hsn]
      exact hinv x

/-- The growth loop preserves nonemptiness, the head (the seed) and the
flood-growth chain property of the patch. -/
theorem growLoop_chain (player : Nat) (k : Nat) :
    ∀ st : GrowState, st.patch ≠ [] → chainOk st.patch →
      (growLoop player k st).patch ≠ [] ∧
      (growLoop player k st).patch.head? = st.patch.head? ∧
      chainOk (growLoop player k st).patch := by
  induction k with
  | zero => intro st hne hch; exact ⟨hne, rfl, hch⟩
  | succ k ih =>
    intro st hne hch
    rw [growLoop_succ]
    by_cases hs : (growStep player st).2 = true
    · rw [if_pos hs]
      obtain ⟨b, cand, hb, hcand, hp, _⟩ := growStep_true player st hs
      have h1 : (growStep player st).1.patch ≠ [] := by
        rw [hp]; simp
      have h2 : chainOk (growStep player st).1.patch := by
        rw [hp]; exact chainOk_append _ _ hch ⟨b, hb, hcand⟩
      obtain ⟨hne', hhead', hch'⟩ := ih (growStep player st).1 h1 h2
      refine ⟨hne', ?_, hch'⟩
      rw [hhead', hp]
      obtain ⟨x, t, hxt⟩ := List.exists_cons_of_ne_nil hne
      rw [hxt]
      rfl
    · rw [if_neg hs]
      obtain ⟨hp, _⟩ := growStep_false player st (by simpa using hs)
      rw [hp]
      exact ⟨hne, rfl, hch⟩

/-- Structure of a committed slot: the new board appends exactly one region
for the slot's player; its patch is nonempty, starts at a freshly drawn free
seed, grows only along hex-neighbor chains, the new occupancy map is the old
one extended by exactly the patch, and — except under the bootstrap flag — some
patch hex borders the previous occupancy. -/
theorem placePatchGo_committed (player ps : Nat) (isFirst : Bool) (board : GenBoard)
    (fuel : Nat) :
    ∀ (rng : Rng) (b' : GenBoard) (rng' : Rng),
      placePatchGo player ps isFirst board fuel rng = .committed b' rng' →
      ∃ patch : List Coord,
        b'.regions = board.regions ++ [⟨patch, player, 0⟩] ∧
        patch ≠ [] ∧
        (∃ n1 n2 : Nat, patch.head? = some (drawSeedCoord n1, drawSeedCoord n2) ∧
          ¬ occupiedIn board.hexes (drawSeedCoord n1, drawSeedCoord n2)) ∧
        chainOk patch ∧
        (∀ x, occupiedIn b'.hexes x ↔ occupiedIn board.hexes x ∨ x ∈ patch) ∧
        (isFirst = false → ∃ c ∈ patch, ∃ nb ∈ hexNeighbors c, occupiedIn board.hexes nb) := by
  induction fuel with
  | zero => intro rng b' rng' h; exact SlotResult.noConfusion h
  | succ fuel ih =>
    intro rng b' rng' h
    simp only [placePatchGo] at h
    by_cases hocc : (hmLookup board.hexes
        (drawSeedCoord (rngNext rng).1, drawSeedCoord (rngNext (rngNext rng).2).1)).isSome = true
    · rw [if_pos hocc] at h
      exact ih _ _ _ h
    · rw [if_neg hocc] at h
      generalize hst : growLoop player ps
        ⟨[(drawSeedCoord (rngNext rng).1, drawSeedCoord (rngNext (rngNext rng).2).1)],
          hmInsert board.hexes
            (drawSeedCoord (rngNext rng).1, drawSeedCoord (rngNext (rngNext rng).2).1) player,
          (rngNext (rngNext rng).2).2⟩ = st at h
      by_cases hlen : (st.patch.length == 1) = true
      · rw [if_pos hlen] at h
        exact SlotResult.noConfusion h
      · rw [if_neg hlen] at h
        by_cases hnb : (st.patch.any (fun ph =>
            (hexNeighbors ph).any (fun nb => (hmLookup board.hexes nb).isSome)) || isFirst) = true
        · rw [if_pos hnb] at h
          rw [SlotResult.committed.injEq] at h
          obtain ⟨hb', hrng'⟩ := h
          subst hb'
          obtain ⟨hne0, hhead0, hch0⟩ := growLoop_chain player ps
            ⟨[(drawSeedCoord (rngNext rng).1, drawSeedCoord (rngNext (rngNext rng).2).1)],
              hmInsert board.hexes
                (drawSeedCoord (rngNext rng).1, drawSeedCoord (rngNext (rngNext rng).2).1) player,
              (rngNext (rngNext rng).2).2⟩ (by simp) (chainOk_single _)
          rw [hst] at hne0 hhead0 hch0
          refine ⟨st.patch, rfl, hne0, ?_, hch0, ?_, ?_⟩
          · exact ⟨(rngNext rng).1, (rngNext (rngNext rng).2).1, hhead0, by
              intro hcon
              exact absurd hcon hocc⟩
          · intro x
            have hsnap := growLoop_snapInv player board.hexes ps
              ⟨[(drawSeedCoord (rngNext rng).1, drawSeedCoord (rngNext (rngNext rng).2).1)],
                hmInsert board.hexes
                  (drawSeedCoord (rngNext rng).1, drawSeedCoord (rngNext (rngNext rng).2).1) player,
                (rngNext (rngNext rng).2).2⟩ (by
                  intro y
                  rw [occupiedIn_hmInsert]
                  simp only [List.mem_singleton]
                  tauto) x
            rw [hst] at hsnap
            exact hsnap
          · intro hfirst
            rw [hfirst, Bool.or_false] at hnb
            obtain ⟨ph, hph, hinner⟩ := List.any_eq_true.1 hnb
            obtain ⟨nb, hnbm, hnbocc⟩ := List.any_eq_true.1 hinner
            exact ⟨ph, hph, nb, hnbm, hnbocc⟩
        · rw [if_neg hnb] at h
          exact ih _ _ _ h

theorem regionHexes_append (rs : List GenRegion) (r : GenRegion) :
    regionHexes (rs ++ [r]) = regionHexes rs ++ r.hexes := by
  unfold regionHexes
  simp

/-- Committing a patch preserves the occupancy/description agreement and the
connectivity invariant, provided the patch borders the old occupancy or the
board was still empty. -/
theorem commit_preserves_inv (board : GenBoard) (snap : HexMap) (patch : List Coord)
    (player : Nat) (hcov : coversInv board) (hadj : adjInv board)
    (hsnap : ∀ x, occupiedIn snap x ↔ occupiedIn board.hexes x ∨ x ∈ patch)
    (hor : (∃ c ∈ patch, ∃ nb ∈ hexNeighbors c, occupiedIn board.hexes nb) ∨
      board.regions = []) :
    coversInv ⟨snap, board.regions ++ [⟨patch, player, 0⟩]⟩ ∧
      adjInv ⟨snap, board.regions ++ [⟨patch, player, 0⟩]⟩ := by
  constructor
  · intro x
    show occupiedIn snap x ↔ x ∈ regionHexes (board.regions ++ [⟨patch, player, 0⟩])
    rw [regionHexes_append, hsnap x, List.mem_append]
    have := hcov x
    tauto
  · intro i hi h1i
    simp only [List.length_append, List.length_singleton] at hi
    by_cases hil : i < board.regions.length
    · obtain ⟨c, hc, nb, hnb, hmem⟩ := hadj i hil h1i
      have hc' : c ∈
          ((board.regions ++ [(⟨patch, player, 0⟩ : GenRegion)]).getD i default).hexes := by
        rw [List.getD_append _ _ _ _ hil]
        exact hc
      have hmem' : nb ∈
          regionHexes ((board.regions ++ [(⟨patch, player, 0⟩ : GenRegion)]).take i) := by
        rw [List.take_append_of_le_length (Nat.le_of_lt hil)]
        exact hmem
      exact ⟨c, hc', nb, hnb, hmem'⟩
    · have hieq : i = board.regions.length := by omega
      have hnonnil : board.regions ≠ [] := by
        intro hcon
        rw [hcon] at hieq
        simp at hieq
        omega
      rcases hor with ⟨c, hc, nb, hnb, hocc⟩ | hcon
      · have hc' : c ∈
            ((board.regions ++ [(⟨patch, player, 0⟩ : GenRegion)]).getD i default).hexes := by
          rw [hieq, getD_append_len]
          exact hc
        have hmem' : nb ∈
            regionHexes ((board.regions ++ [(⟨patch, player, 0⟩ : GenRegion)]).take i) := by
          rw [hieq, List.take_append_of_le_length (Nat.le_refl _), List.take_length]
          exact (hcov nb).mp hocc
        exact ⟨c, hc', nb, hnb, hmem'⟩
      · exact absurd hcon hnonnil

/-- Running slots none of which is the bootstrap preserves the occupancy
description and the connectivity invariant. -/
theorem runSlots_inv (ps fuel : Nat) :
    ∀ (slots : List (Nat × Nat)) (board : GenBoard) (rng : Rng) (b' : GenBoard) (rng' : Rng),
      (∀ s ∈ slots, ¬(s.1 = 0 ∧ s.2 = 0)) →
      coversInv board → adjInv board →
      runSlots ps fuel slots board rng = .done b' rng' →
      coversInv b' ∧ adjInv b' := by
  intro slots
  induction slots with
  | nil =>
    intro board rng b' rng' _ hcov hadj h
    simp only [runSlots, GenResult.done.injEq] at h
    obtain ⟨rfl, _⟩ := h
    exact ⟨hcov, hadj⟩
  | cons s rest ih =>
    intro board rng b' rng' hslots hcov hadj h
    obtain ⟨patchIdx, player⟩ := s
    have hflag : ((patchIdx == 0) && (player == 0)) = false := by
      have := hslots (patchIdx, player) (List.mem_cons_self _ _)
      simp only [Bool.and_eq_false_iff, beq_eq_false_iff_ne]
      by_cases hp : patchIdx = 0
      · exact Or.inr (fun hq => this ⟨hp, hq⟩)
      · exact Or.inl hp
    simp only [runSlots] at h
    rw [hflag] at h
    cases hplace : placePatchGo player ps false board fuel rng with
    | committed b1 rng1 =>
      rw [hplace] at h
      obtain ⟨patch, hreg, _, _, _, hsnap, hadjp⟩ :=
        placePatchGo_committed player ps false board fuel rng b1 rng1 hplace
      have hb1 : b1 = ⟨b1.hexes, board.regions ++ [(⟨patch, player, 0⟩ : GenRegion)]⟩ := by
        cases b1
        simp only [GenBoard.mk.injEq, true_and]
        exact hreg
      obtain ⟨hcov1, hadj1⟩ := commit_preserves_inv board b1.hexes patch player hcov hadj
        hsnap (Or.inl (hadjp rfl))
      rw [← hb1] at hcov1 hadj1
      exact ih b1 rng1 b' rng'
        (fun s hs => hslots s (List.mem_cons_of_mem _ hs)) hcov1 hadj1 h
    | skipped rng1 =>
      rw [hplace] at h
      exact ih board rng1 b' rng'
        (fun s hs => hslots s (List.mem_cons_of_mem _ hs)) hcov hadj h
    | fuelOut =>
      rw [hplace] at h
      exact GenResult.noConfusion h

/-- The slot sequence of an `n ≥ 1` player game starts with the bootstrap slot
`(0, 0)` and never repeats it. -/
theorem slotList_cons (n : Nat) (hn : 1 ≤ n) :
    ∃ rest, slotList n = (0, 0) :: rest ∧ ∀ s ∈ rest, ¬(s.1 = 0 ∧ s.2 = 0) := by
  obtain ⟨m, rfl⟩ : ∃ m, n = m + 1 := ⟨n - 1, by omega⟩
  unfold slotList
  have h16 : List.range NUMBER_OF_PATCHES = 0 :: (List.range 15).map Nat.succ := by
    rw [show NUMBER_OF_PATCHES = 15 + 1 from rfl, List.range_succ_eq_map]
  rw [h16, List.flatMap_cons, List.range_succ_eq_map, List.map_cons, List.cons_append]
  refine ⟨_, rfl, ?_⟩
  intro s hs
  rcases List.mem_append.1 hs with hs1 | hs1
  · obtain ⟨pl, hpl, rfl⟩ := List.mem_map.1 hs1
    obtain ⟨k, _, rfl⟩ := List.mem_map.1 hpl
    intro ⟨_, hq⟩
    exact Nat.succ_ne_zero k hq
  · obtain ⟨patch, hpatch, hsin⟩ := List.mem_flatMap.1 hs1
    obtain ⟨k, _, rfl⟩ := List.mem_map.1 hpatch
    obtain ⟨pl, _, rfl⟩ := List.mem_map.1 hsin
    intro ⟨hp, _⟩
    exact Nat.succ_ne_zero k hp

/-! Claim theorems. -/

/-- C1: when the attacker's dice-face sum exceeds the defender's, the defender
region's owner becomes the attacker's owner; if the winner had more than one
die, the captured region's dice are set to a fresh draw in `[1, winner_dice)`
and the winner's dice drop by that draw minus one; a one-die winner transfers
nothing and the captured region keeps its dice. Symmetrically when the
defender's sum is strictly larger. -/
theorem c1_combat_resolution (rs : List Region) (e : MoveEndEvent) (rnd : Nat)
    (h1 : e.region_1.id < rs.length) (h2 : e.region_2.id < rs.length)
    (hne : e.region_1.id ≠ e.region_2.id) :
    (e.region_1_dice_result.sum > e.region_2_dice_result.sum →
      ((resolveCombat rs e rnd).getD e.region_2.id default).owner = e.region_1.owner ∧
      (1 < e.region_1.num_dice →
        ∃ c, 1 ≤ c ∧ c < e.region_1.num_dice ∧
          ((resolveCombat rs e rnd).getD e.region_2.id default).num_dice = c ∧
          ((resolveCombat rs e rnd).getD e.region_1.id default).num_dice =
            (rs.getD e.region_1.id default).num_dice - (c - 1)) ∧
      (e.region_1.num_dice = 1 →
        ((resolveCombat rs e rnd).getD e.region_2.id default).num_dice =
          (rs.getD e.region_2.id default).num_dice ∧
        ((resolveCombat rs e rnd).getD e.region_1.id default).num_dice =
          (rs.getD e.region_1.id default).num_dice)) ∧
    (e.region_2_dice_result.sum > e.region_1_dice_result.sum →
      ((resolveCombat rs e rnd).getD e.region_1.id default).owner = e.region_2.owner ∧
      (1 < e.region_2.num_dice →
        ∃ c, 1 ≤ c ∧ c < e.region_2.num_dice ∧
          ((resolveCombat rs e rnd).getD e.region_1.id default).num_dice = c ∧
          ((resolveCombat rs e rnd).getD e.region_2.id default).num_dice =
            (rs.getD e.region_2.id default).num_dice - (c - 1)) ∧
      (e.region_2.num_dice = 1 →
        ((resolveCombat rs e rnd).getD e.region_1.id default).num_dice =
          (rs.getD e.region_1.id default).num_dice ∧
        ((resolveCombat rs e rnd).getD e.region_2.id default).num_dice =
          (rs.getD e.region_2.id default).num_dice)) := by
  constructor
  · intro hs
    by_cases hw : 1 < e.region_1.num_dice
    · obtain ⟨hL, hW, _⟩ := resolve_win1 rs e rnd h1 h2 hne hs hw
      refine ⟨by rw [hL], fun _ => ?_, fun h1eq => absurd hw (by omega)⟩
      exact ⟨genRangeNat 1 e.region_1.num_dice rnd, genRangeNat_le 1 _ rnd,
        genRangeNat_lt 1 _ rnd hw, by rw [hL], by rw [hW]⟩
    · obtain ⟨hL, hOther⟩ := resolve_win1_one rs e rnd h2 hs hw
      refine ⟨by rw [hL], fun hw' => absurd hw' hw, fun _ => ⟨by rw [hL], ?_⟩⟩
      rw [hOther e.region_1.id hne]
  · intro hs
    have hs' : ¬ e.region_2_dice_result.sum < e.region_1_dice_result.sum := by omega
    by_cases hw : 1 < e.region_2.num_dice
    · obtain ⟨hL, hW, _⟩ := resolve_win2 rs e rnd h1 h2 hne hs' hw
      refine ⟨by rw [hL], fun _ => ?_, fun h1eq => absurd hw (by omega)⟩
      exact ⟨genRangeNat 1 e.region_2.num_dice rnd, genRangeNat_le 1 _ rnd,
        genRangeNat_lt 1 _ rnd hw, by rw [hL], by rw [hW]⟩
    · obtain ⟨hL, hOther⟩ := resolve_win2_one rs e rnd h1 hs' hw
      refine ⟨by rw [hL], fun hw' => absurd hw' hw, fun _ => ⟨by rw [hL], ?_⟩⟩
      rw [hOther e.region_2.id (Ne.symm hne)]

/-- C1 witness: the concrete clash `eC1` on `rsC1` satisfies the hypotheses and
the defender region changes owner accordingly. -/
theorem c1_witness :
    eC1.region_1.id < rsC1.length ∧ eC1.region_2.id < rsC1.length ∧
      eC1.region_1.id ≠ eC1.region_2.id ∧
      ((resolveCombat rsC1 eC1 0).getD eC1.region_2.id default).owner = eC1.region_1.owner :=
  ⟨by decide, by decide, by decide,
    ((c1_combat_resolution rsC1 eC1 0 (by decide) (by decide) (by decide)).1 (by decide)).1⟩

/-- C2 counterexample: for the concrete clash `eC2` on `rsC2` (attacker 3 dice
beats defender 2 dice, reinforcement draw 0) the pair's dice total drops from 5
to 4, so dice are not conserved across the two regions. -/
theorem c2_counterexample :
    pairDiceSum (resolveCombat rsC2 eC2 0) eC2 ≠ pairDiceSum rsC2 eC2 := by decide

/-- C2 amended: after resolution the pair's dice total is `winner_dice + 1`
when the winner entered with more than one die (the loser's previous dice are
discarded), and is unchanged when the winner entered with at most one die;
conservation holds exactly when the winner or the loser held a single die. -/
theorem c2_amended_pair_total (rs : List Region) (e : MoveEndEvent) (rnd : Nat)
    (h1 : e.region_1.id < rs.length) (h2 : e.region_2.id < rs.length)
    (hne : e.region_1.id ≠ e.region_2.id)
    (ha1 : e.region_1.num_dice = (rs.getD e.region_1.id default).num_dice)
    (ha2 : e.region_2.num_dice = (rs.getD e.region_2.id default).num_dice) :
    (e.region_1_dice_result.sum > e.region_2_dice_result.sum →
      pairDiceSum (resolveCombat rs e rnd) e =
        (if 1 < e.region_1.num_dice then e.region_1.num_dice + 1
         else e.region_1.num_dice + e.region_2.num_dice)) ∧
    (¬ e.region_1_dice_result.sum > e.region_2_dice_result.sum →
      pairDiceSum (resolveCombat rs e rnd) e =
        (if 1 < e.region_2.num_dice then e.region_2.num_dice + 1
         else e.region_1.num_dice + e.region_2.num_dice)) := by
  constructor
  · intro hs
    by_cases hw : 1 < e.region_1.num_dice
    · obtain ⟨hL, hW, _⟩ := resolve_win1 rs e rnd h1 h2 hne hs hw
      rw [if_pos hw]
      have hcle : 1 ≤ genRangeNat 1 e.region_1.num_dice rnd := genRangeNat_le 1 _ rnd
      have hclt : genRangeNat 1 e.region_1.num_dice rnd < e.region_1.num_dice :=
        genRangeNat_lt 1 _ rnd hw
      unfold pairDiceSum
      rw [hL, hW]
      simp only []
      omega
    · obtain ⟨hL, hOther⟩ := resolve_win1_one rs e rnd h2 hs hw
      rw [if_neg hw]
      unfold pairDiceSum
      rw [hL, hOther e.region_1.id hne]
      simp only []
      omega
  · intro hs
    have hs' : ¬ e.region_2_dice_result.sum < e.region_1_dice_result.sum := hs
    by_cases hw : 1 < e.region_2.num_dice
    · obtain ⟨hL, hW, _⟩ := resolve_win2 rs e rnd h1 h2 hne hs' hw
      rw [if_pos hw]
      have hcle : 1 ≤ genRangeNat 1 e.region_2.num_dice rnd := genRangeNat_le 1 _ rnd
      have hclt : genRangeNat 1 e.region_2.num_dice rnd < e.region_2.num_dice :=
        genRangeNat_lt 1 _ rnd hw
      unfold pairDiceSum
      rw [hL, hW]
      simp only []
      omega
    · obtain ⟨hL, hOther⟩ := resolve_win2_one rs e rnd h1 hs' hw
      rw [if_neg hw]
      unfold pairDiceSum
      rw [hL, hOther e.region_2.id (Ne.symm hne)]
      simp only []
      omega

/-- C2 amended witness: the concrete clash `eC2w` on `rsC2w` satisfies the
hypotheses and the pair total becomes `winner_dice + 1 = 5`. -/
theorem c2_amended_witness :
    eC2w.region_1.id < rsC2w.length ∧ eC2w.region_2.id < rsC2w.length ∧
      eC2w.region_1.id ≠ eC2w.region_2.id ∧
      pairDiceSum (resolveCombat rsC2w eC2w 0) eC2w = 5 :=
  ⟨by decide, by decide, by decide, by
    have h := (c2_amended_pair_total rsC2w eC2w 0 (by decide) (by decide) (by decide)
      (by decide) (by decide)).1 (by decide)
    simpa using h⟩

/-- C9: on equal dice-face sums the `else` branch runs, so the defender
(region 2) wins: region 1's owner becomes region 2's owner, with the defender's
reinforcement transfer exactly as in the defender-wins branch; the older
handler in `main.rs` likewise hands region 1 to the defender on ties. -/
theorem c9_tie_defender_wins (rs : List Region) (e : MoveEndEvent) (rnd : Nat)
    (h1 : e.region_1.id < rs.length) (h2 : e.region_2.id < rs.length)
    (hne : e.region_1.id ≠ e.region_2.id)
    (htie : e.region_1_dice_result.sum = e.region_2_dice_result.sum) :
    ((resolveCombat rs e rnd).getD e.region_1.id default).owner = e.region_2.owner ∧
    (1 < e.region_2.num_dice →
      ∃ c, 1 ≤ c ∧ c < e.region_2.num_dice ∧
        ((resolveCombat rs e rnd).getD e.region_1.id default).num_dice = c ∧
        ((resolveCombat rs e rnd).getD e.region_2.id default).num_dice =
          (rs.getD e.region_2.id default).num_dice - (c - 1)) ∧
    ((resolveClashEndMain rs
        ⟨e.region_1, e.region_2, e.region_1_dice_result.sum, e.region_2_dice_result.sum⟩
        rnd).getD e.region_1.id default).owner = e.region_2.owner := by
  have hs' : ¬ e.region_2_dice_result.sum < e.region_1_dice_result.sum := by omega
  refine ⟨?_, ?_, ?_⟩
  · by_cases hw : 1 < e.region_2.num_dice
    · obtain ⟨hL, _, _⟩ := resolve_win2 rs e rnd h1 h2 hne hs' hw
      rw [hL]
    · obtain ⟨hL, _⟩ := resolve_win2_one rs e rnd h1 hs' hw
      rw [hL]
  · intro hw
    obtain ⟨hL, hW, _⟩ := resolve_win2 rs e rnd h1 h2 hne hs' hw
    exact ⟨genRangeNat 1 e.region_2.num_dice rnd, genRangeNat_le 1 _ rnd,
      genRangeNat_lt 1 _ rnd hw, by rw [hL], by rw [hW]⟩
  · simp only [resolveClashEndMain]
    rw [if_neg hs']
    by_cases hw : 1 < e.region_2.num_dice
    · rw [if_pos hw]
      have h1' : e.region_1.id <
          (modifyAt rs e.region_1.id (fun r => { r with owner := e.region_2.owner })).length := by
        rw [length_modifyAt]; exact h1
      rw [getD_modifyAt_ne _ _ _ _ _ (Ne.symm hne),
        getD_modifyAt_self _ _ _ _ h1', getD_modifyAt_self _ _ _ _ h1]
    · rw [if_neg hw, getD_modifyAt_self _ _ _ _ h1]

/-- C9 witness: the concrete tied clash `eC9` on `rsC9` satisfies the
hypotheses and region 0 is handed to the defender. -/
theorem c9_witness :
    eC9.region_1.id < rsC9.length ∧ eC9.region_2.id < rsC9.length ∧
      eC9.region_1.id ≠ eC9.region_2.id ∧
      eC9.region_1_dice_result.sum = eC9.region_2_dice_result.sum ∧
      ((resolveCombat rsC9 eC9 0).getD eC9.region_1.id default).owner = eC9.region_2.owner :=
  ⟨by decide, by decide, by decide, by decide,
    (c9_tie_defender_wins rsC9 eC9 0 (by decide) (by decide) (by decide) (by decide)).1⟩

/-- C3: after a resolved combat, the turn advances exactly when the acting
player has no unblocked, not-yet-moved region left in the mutated state; the
player index then steps by one wrapping to 0 at `number_of_players` and the
turn counter steps by exactly one; otherwise both fields are unchanged. -/
theorem c3_turn_advance (gs : GameState) (e : MoveEndEvent) (rnd : Nat)
    (hn : 2 ≤ gs.number_of_players) (ht : gs.turn_of_player < gs.number_of_players) :
    (((playerMoveEnd gs e rnd).1.turn_of_player ≠ gs.turn_of_player) ↔
      numberOfUnblockedRegions (resolveGS gs e rnd) = 0) ∧
    (numberOfUnblockedRegions (resolveGS gs e rnd) = 0 →
      (playerMoveEnd gs e rnd).1.turn_of_player =
        (if gs.turn_of_player + 1 ≥ gs.number_of_players then 0
         else gs.turn_of_player + 1) ∧
      (playerMoveEnd gs e rnd).1.turn_counter = gs.turn_counter + 1) ∧
    (numberOfUnblockedRegions (resolveGS gs e rnd) ≠ 0 →
      (playerMoveEnd gs e rnd).1.turn_of_player = gs.turn_of_player ∧
      (playerMoveEnd gs e rnd).1.turn_counter = gs.turn_counter) := by
  have hb : (playerMoveEnd gs e rnd).1 = advanceTurn (resolveGS gs e rnd) := rfl
  by_cases h : numberOfUnblockedRegions (resolveGS gs e rnd) = 0
  · rw [hb]
    unfold advanceTurn
    rw [if_pos h]
    refine ⟨⟨fun _ => h, fun _ => ?_⟩, fun _ => ⟨rfl, rfl⟩, fun hcon => absurd h hcon⟩
    show (if gs.turn_of_player + 1 ≥ gs.number_of_players then 0
      else gs.turn_of_player + 1) ≠ gs.turn_of_player
    split <;> omega
  · rw [hb]
    unfold advanceTurn
    rw [if_neg h]
    exact ⟨⟨fun hne => absurd rfl hne, fun h0 => absurd h0 h⟩,
      fun h0 => absurd h0 h, fun _ => ⟨rfl, rfl⟩⟩

/-- C3 witness: a concrete two-player state with an empty board, where the
acting player trivially has no unblocked region, so the turn advances. -/
theorem c3_witness :
    2 ≤ (⟨⟨[]⟩, 2, 0, 0, []⟩ : GameState).number_of_players ∧
      (⟨⟨[]⟩, 2, 0, 0, []⟩ : GameState).turn_of_player <
        (⟨⟨[]⟩, 2, 0, 0, []⟩ : GameState).number_of_players ∧
      (((playerMoveEnd ⟨⟨[]⟩, 2, 0, 0, []⟩ default 0).1.turn_of_player ≠
          (⟨⟨[]⟩, 2, 0, 0, []⟩ : GameState).turn_of_player) ↔
        numberOfUnblockedRegions (resolveGS ⟨⟨[]⟩, 2, 0, 0, []⟩ default 0) = 0) :=
  ⟨by decide, by decide,
    (c3_turn_advance ⟨⟨[]⟩, 2, 0, 0, []⟩ default 0 (by decide) (by decide)).1⟩

theorem countOwned_eq_length (rs : List Region) (w : Nat)
    (h : countOwned rs w = rs.length) : ∀ r ∈ rs, r.owner = w := by
  intro r hr
  have hsub : rs.filter (fun r => r.owner == w) = rs :=
    (List.filter_sublist rs).eq_of_length h
  have := List.filter_eq_self.mp hsub r hr
  simpa using this

/-- Specification of the win-detection scan over a nonempty region list. -/
theorem gameOverWinner_spec (rs : List Region) (w : Nat) (hne : rs ≠ []) :
    (gameOverWinner rs = some w ↔ countOwned rs w = rs.length) ∧
    (gameOverWinner rs = some w → ∀ r1 ∈ rs, ∀ r2 ∈ rs, r1.is_opponent r2 = false) := by
  have hiff : gameOverWinner rs = some w ↔ countOwned rs w = rs.length := by
    constructor
    · intro h
      have := List.find?_some h
      simpa using this
    · intro h
      have hall := countOwned_eq_length rs w h
      obtain ⟨r0, tl, rfl⟩ := List.exists_cons_of_ne_nil hne
      have h0 : r0.owner = w := hall r0 (by simp)
      unfold gameOverWinner
      simp only [List.map_cons, h0]
      rw [List.find?_cons_of_pos]
      simpa using h
  refine ⟨hiff, fun h r1 hr1 r2 hr2 => ?_⟩
  have hall := countOwned_eq_length rs w (hiff.mp h)
  have e1 : r1.owner = w := hall r1 hr1
  have e2 : r2.owner = w := hall r2 hr2
  simp [Region.is_opponent, e1, e2]

/-- C4: after a resolved combat and the turn-advancement logic, the game-over
event fires with winner `w` exactly when `w` owns every region on the board;
and whenever it fires, no two regions are opponents any more, so no further
attack (and hence no further combat or turn) is possible. -/
theorem c4_game_over (gs : GameState) (e : MoveEndEvent) (rnd : Nat) (w : Nat)
    (hne : (playerMoveEnd gs e rnd).1.board.regions ≠ []) :
    ((playerMoveEnd gs e rnd).2 = some w ↔
      countOwned (playerMoveEnd gs e rnd).1.board.regions w =
        (playerMoveEnd gs e rnd).1.board.regions.length) ∧
    ((playerMoveEnd gs e rnd).2 = some w →
      ∀ r1 ∈ (playerMoveEnd gs e rnd).1.board.regions,
        ∀ r2 ∈ (playerMoveEnd gs e rnd).1.board.regions,
          r1.is_opponent r2 = false) :=
  gameOverWinner_spec (playerMoveEnd gs e rnd).1.board.regions w hne

/-- Game state for the C4 witness: one region, owner 0, one die. -/
def gsC4 : GameState := ⟨⟨[⟨0, [(0, 0)], 0, 1⟩]⟩, 2, 0, 0, []⟩

/-- Clash for the C4 witness (self-clash on the only region; defender sum wins,
one-die winner so no transfer). -/
def eC4 : MoveEndEvent :=
  ⟨0, 0, ⟨0, [(0, 0)], 0, 1⟩, ⟨0, [(0, 0)], 0, 1⟩, [1], [2]⟩

/-- C4 witness: in the concrete post-combat state the board is nonempty and the
game-over signal for player 0 is equivalent to player 0 owning all regions. -/
theorem c4_witness :
    (playerMoveEnd gsC4 eC4 0).1.board.regions ≠ [] ∧
      ((playerMoveEnd gsC4 eC4 0).2 = some 0 ↔
        countOwned (playerMoveEnd gsC4 eC4 0).1.board.regions 0 =
          (playerMoveEnd gsC4 eC4 0).1.board.regions.length) :=
  ⟨by decide, (c4_game_over gsC4 eC4 0 0 (by decide)).1⟩

/-- Every region produced by a successful dice allocation holds at least one die. -/
theorem allocGo_dice_pos (regions : List GenRegion) :
    ∀ (budget : Budget) (rng : Rng) (out : List GenRegion × Budget × Rng),
      allocGo regions budget rng = some out → ∀ r ∈ out.1, 1 ≤ r.number_of_dice := by
  induction regions with
  | nil =>
    intro budget rng out h r hr
    simp only [allocGo, Option.some.injEq] at h
    rw [← h] at hr
    simp at hr
  | cons hd tl ih =>
    intro budget rng out h r hr
    simp only [allocGo] at h
    cases hbud : budLookup budget hd.owner with
    | none => rw [hbud] at h; simp at h
    | some b =>
      rw [hbud] at h
      simp only [] at h
      by_cases hg : 1 < Nat.min 4 b
      · rw [if_pos hg] at h
        cases halloc : allocGo tl (budInsert budget hd.owner
            (b - genRangeNat 1 (Nat.min 4 b) (rngNext rng).1)) (rngNext rng).2 with
        | none => rw [halloc] at h; simp at h
        | some trip =>
          obtain ⟨rs0, bud0, rng0⟩ := trip
          rw [halloc] at h
          simp only [Option.some.injEq] at h
          rw [← h] at hr
          rcases List.mem_cons.1 hr with h1 | h1
          · rw [h1]
            exact genRangeNat_le 1 _ _
          · exact ih _ _ _ halloc r h1
      · rw [if_neg hg] at h
        simp at h

/-- C6: regions always hold at least one die. The initial allocation draws from
`gen_range(1..min(4, budget))`, so a successful allocation gives every region at
least one die; and combat resolution preserves a one-die lower bound across the
whole board whenever the two logged snapshots agree with the board. -/
theorem c6_dice_at_least_one :
    (∀ (regions : List GenRegion) (budget : Budget) (rng : Rng)
        (out : List GenRegion × Budget × Rng),
        allocGo regions budget rng = some out → ∀ r ∈ out.1, 1 ≤ r.number_of_dice) ∧
    (∀ (rs : List Region) (e : MoveEndEvent) (rnd : Nat),
        e.region_1.id < rs.length → e.region_2.id < rs.length →
        e.region_1.id ≠ e.region_2.id →
        e.region_1.num_dice = (rs.getD e.region_1.id default).num_dice →
        e.region_2.num_dice = (rs.getD e.region_2.id default).num_dice →
        (∀ r ∈ rs, 1 ≤ r.num_dice) →
        ∀ r ∈ resolveCombat rs e rnd, 1 ≤ r.num_dice) := by
  constructor
  · exact fun regions => allocGo_dice_pos regions
  · intro rs e rnd h1 h2 hne ha1 ha2 hall r hr
    obtain ⟨i, hi, rfl⟩ := List.mem_iff_getElem.1 hr
    have hlen : i < rs.length := by rw [resolveCombat_length] at hi; exact hi
    have hgetD : (resolveCombat rs e rnd)[i] = (resolveCombat rs e rnd).getD i default := by
      rw [List.getD_eq_getElem _ _ hi]
    rw [hgetD]
    have hmemD : ∀ j, j < rs.length → 1 ≤ (rs.getD j default).num_dice := by
      intro j hj
      rw [List.getD_eq_getElem _ _ hj]
      exact hall _ (List.getElem_mem hj)
    by_cases hs : e.region_2_dice_result.sum < e.region_1_dice_result.sum
    · by_cases hw : 1 < e.region_1.num_dice
      · obtain ⟨hL, hW, hOther⟩ := resolve_win1 rs e rnd h1 h2 hne hs hw
        have hcle : 1 ≤ genRangeNat 1 e.region_1.num_dice rnd := genRangeNat_le 1 _ rnd
        have hclt : genRangeNat 1 e.region_1.num_dice rnd < e.region_1.num_dice :=
          genRangeNat_lt 1 _ rnd hw
        by_cases hi1 : i = e.region_1.id
        · rw [hi1, hW]
          simp only []
          omega
        · by_cases hi2 : i = e.region_2.id
          · rw [hi2, hL]
            simp only []
            omega
          · rw [hOther i hi1 hi2]
            exact hmemD i hlen
      · obtain ⟨hL, hOther⟩ := resolve_win1_one rs e rnd h2 hs hw
        by_cases hi2 : i = e.region_2.id
        · rw [hi2, hL]
          simp only []
          exact hmemD _ h2
        · rw [hOther i hi2]
          exact hmemD i hlen
    · by_cases hw : 1 < e.region_2.num_dice
      · obtain ⟨hL, hW, hOther⟩ := resolve_win2 rs e rnd h1 h2 hne hs hw
        have hcle : 1 ≤ genRangeNat 1 e.region_2.num_dice rnd := genRangeNat_le 1 _ rnd
        have hclt : genRangeNat 1 e.region_2.num_dice rnd < e.region_2.num_dice :=
          genRangeNat_lt 1 _ rnd hw
        by_cases hi2 : i = e.region_2.id
        · rw [hi2, hW]
          simp only []
          omega
        · by_cases hi1 : i = e.region_1.id
          · rw [hi1, hL]
            simp only []
            omega
          · rw [hOther i hi1 hi2]
            exact hmemD i hlen
      · obtain ⟨hL, hOther⟩ := resolve_win2_one rs e rnd h1 hs hw
        by_cases hi1 : i = e.region_1.id
        · rw [hi1, hL]
          simp only []
          exact hmemD _ h1
        · rw [hOther i hi1]
          exact hmemD i hlen

/-- Budget map for the C6 witness. -/
def budC6 : Budget := [(0, 64), (1, 64)]

/-- Region list for the C6 witness allocation. -/
def rgC6 : List GenRegion := [⟨[(0, 0)], 0, 0⟩, ⟨[(2, 0)], 1, 0⟩]

/-- C6 witness: a concrete successful allocation and a concrete combat both
keep every dice count at least 1. -/
theorem c6_witness :
    (allocGo rgC6 budC6 [0, 1] =
        some ([⟨[(0, 0)], 0, 1⟩, ⟨[(2, 0)], 1, 2⟩], [(1, 62), (0, 63), (0, 64), (1, 64)], []) ∧
      ∀ r ∈ [(⟨[(0, 0)], 0, 1⟩ : GenRegion), ⟨[(2, 0)], 1, 2⟩], 1 ≤ r.number_of_dice) ∧
    (∀ r ∈ resolveCombat rsC1 eC1 0, 1 ≤ r.num_dice) :=
  ⟨⟨by decide, fun r hr => c6_dice_at_least_one.1 rgC6 budC6 [0, 1]
      ([⟨[(0, 0)], 0, 1⟩, ⟨[(2, 0)], 1, 2⟩], [(1, 62), (0, 63), (0, 64), (1, 64)], [])
      (by decide) r hr⟩,
    fun r hr => c6_dice_at_least_one.2 rsC1 eC1 0 (by decide) (by decide) (by decide)
      (by decide) (by decide) (by decide) r hr⟩

/-- C7: on every generated board, every committed region except the very first
one placed has, at commit time, a hex that is a grid-neighbor of a hex already
in the board's occupancy map; stated over the final board, every region other
than region 0 has a hex bordering the hexes of earlier-placed regions. -/
theorem c7_connectivity (n fuel : Nat) (rng : Rng) (b : GenBoard) (rng' : Rng)
    (hn : 1 ≤ n)
    (h : runSlots (patchSizeOf n) fuel (slotList n) ⟨[], []⟩ rng = .done b rng') :
    adjInv b := by
  obtain ⟨rest, hsl, hrest⟩ := slotList_cons n hn
  rw [hsl] at h
  have hcov0 : coversInv ⟨[], []⟩ := by
    intro x
    constructor
    · intro hcon
      exact absurd hcon (occupiedIn_nil x)
    · intro hcon
      simp [regionHexes] at hcon
  have hadj0 : adjInv ⟨[], []⟩ := by
    intro i hi h1i
    simp at hi
  simp only [runSlots] at h
  cases hplace : placePatchGo 0 (patchSizeOf n) ((0 == 0) && (0 == 0)) ⟨[], []⟩ fuel rng with
  | committed b1 rng1 =>
    rw [hplace] at h
    obtain ⟨patch, hreg, _, _, _, hsnap, _⟩ :=
      placePatchGo_committed 0 (patchSizeOf n) ((0 == 0) && (0 == 0)) ⟨[], []⟩ fuel rng
        b1 rng1 hplace
    have hb1 : b1 = ⟨b1.hexes, ([] : List GenRegion) ++ [(⟨patch, 0, 0⟩ : GenRegion)]⟩ := by
      cases b1
      simp only [GenBoard.mk.injEq, true_and]
      exact hreg
    obtain ⟨hcov1, hadj1⟩ := commit_preserves_inv ⟨[], []⟩ b1.hexes patch 0 hcov0 hadj0
      hsnap (Or.inr rfl)
    rw [← hb1] at hcov1 hadj1
    exact (runSlots_inv (patchSizeOf n) fuel rest b1 rng1 b rng' hrest hcov1 hadj1 h).2
  | skipped rng1 =>
    rw [hplace] at h
    exact (runSlots_inv (patchSizeOf n) fuel rest ⟨[], []⟩ rng1 b rng' hrest hcov0 hadj0 h).2
  | fuelOut =>
    rw [hplace] at h
    exact GenResult.noConfusion h

/-- C7 witness: the concrete eight-player run of `trace8` completes, and its
board satisfies the connectivity invariant. -/
theorem c7_witness :
    (1 ≤ 8 ∧
      runSlots (patchSizeOf 8) 9 (slotList 8) ⟨[], []⟩ trace8 = .done board8 [0, 0, 0]) ∧
      adjInv board8 := by
  have hrun : runSlots (patchSizeOf 8) 9 (slotList 8) ⟨[], []⟩ trace8 =
      .done board8 [0, 0, 0] := by rfl
  exact ⟨⟨by decide, hrun⟩, c7_connectivity 8 9 trace8 board8 [0, 0, 0] (by decide) hrun⟩

/-- C8 counterexample: the concrete four-player run of `trace4` generates a
complete board one of whose hexes is `(-11, 0)`, which lies outside the square
of side 20 centered on the origin (coordinates within `[-10, 10]`). -/
theorem c8_counterexample :
    generateBoard 4 9 trace4 = some (finalBoard4, []) ∧
      (-11, 0) ∈ regionHexes finalBoard4.regions ∧
      ¬((-10 : Int) ≤ -11 ∧ (-11 : Int) ≤ 10) :=
  ⟨by rfl, by decide, by decide⟩

/-- C8 amended: every seed coordinate is drawn from `[-HALF_BOARD_SIZE,
HALF_BOARD_SIZE)` = `[-9, 8]` — a square of side 18 not centered on the origin,
not the claimed side-20 square — and a committed patch consists of such a fresh
seed followed by hexes each of which is a grid-neighbor of an earlier patch
hex, with no extent check at all during growth. -/
theorem c8_amended_extent :
    (∀ n : Nat, -HALF_BOARD_SIZE ≤ drawSeedCoord n ∧ drawSeedCoord n < HALF_BOARD_SIZE) ∧
    (∀ (player ps : Nat) (isFirst : Bool) (board : GenBoard) (fuel : Nat)
        (rng : Rng) (b' : GenBoard) (rng' : Rng),
        placePatchGo player ps isFirst board fuel rng = .committed b' rng' →
        ∃ patch : List Coord,
          b'.regions = board.regions ++ [⟨patch, player, 0⟩] ∧
          (∃ n1 n2 : Nat, patch.head? = some (drawSeedCoord n1, drawSeedCoord n2)) ∧
          chainOk patch) := by
  constructor
  · intro n
    have hh : drawSeedCoord n = -9 + Int.ofNat (n % 18) := rfl
    have hm : n % 18 < 18 := Nat.mod_lt n (by omega)
    have hhalf : HALF_BOARD_SIZE = 9 := rfl
    rw [hh, hhalf, Int.ofNat_eq_coe]
    omega
  · intro player ps isFirst board fuel rng b' rng' h
    obtain ⟨patch, hreg, _, ⟨n1, n2, hhead, _⟩, hch, _, _⟩ :=
      placePatchGo_committed player ps isFirst board fuel rng b' rng' h
    exact ⟨patch, hreg, ⟨n1, n2, hhead⟩, hch⟩

/-- C8 amended witness: the seed-range bound at a concrete draw, and the
structure of a concrete committed bootstrap slot. -/
theorem c8_amended_witness :
    (-HALF_BOARD_SIZE ≤ drawSeedCoord 20 ∧ drawSeedCoord 20 < HALF_BOARD_SIZE) ∧
      (∃ patch : List Coord,
        (GenBoard.mk [((1, -1), 0), ((1, 0), 0)]
            [⟨[(1, 0), (1, -1)], 0, 0⟩]).regions =
          ([] : List GenRegion) ++ [⟨patch, 0, 0⟩] ∧
        (∃ n1 n2 : Nat, patch.head? = some (drawSeedCoord n1, drawSeedCoord n2)) ∧
        chainOk patch) :=
  ⟨c8_amended_extent.1 20,
    c8_amended_extent.2 0 1 true ⟨[], []⟩ 1 [10, 9, 2]
      ⟨[((1, -1), 0), ((1, 0), 0)], [⟨[(1, 0), (1, -1)], 0, 0⟩]⟩ [] (by rfl)⟩

/-- C5: evaluation of the generation loops on `trace8` for eight players. The
slot phase iterates `16 * 8 = 128` slots but the final board carries only 3
regions: once the free cell `(0, 0)` is walled in, every remaining slot picks
it as seed, grows a patch of exactly one hex, and the `break` taken with
`is_starting_point_valid` already true abandons the slot without any retry —
shown directly on the concrete skipped slot at the end. -/
theorem c5_skipped_slot :
    runSlots (patchSizeOf 8) 9 (slotList 8) ⟨[], []⟩ trace8 = .done board8 [0, 0, 0] ∧
      board8.regions.length = 3 ∧
      (slotList 8).length = NUMBER_OF_PATCHES * 8 ∧
      placePatchGo 3 (patchSizeOf 8) false board8 9 [9, 9] = .skipped [] :=
  ⟨by rfl, by rfl, by rfl, by rfl⟩

theorem ownerCount_append (rs : List GenRegion) (r : GenRegion) (p : Nat) :
    ownerCount (rs ++ [r]) p = ownerCount rs p + (if r.owner == p then 1 else 0) := by
  unfold ownerCount
  rw [List.filter_append, List.length_append]
  by_cases h : (r.owner == p) = true <;> simp [List.filter_cons, h]

theorem ownerCount_cons_self (r : GenRegion) (rest : List GenRegion) :
    ownerCount (r :: rest) r.owner = ownerCount rest r.owner + 1 := by
  unfold ownerCount
  simp [List.filter_cons]

theorem ownerCount_cons_ne (r : GenRegion) (rest : List GenRegion) (p : Nat)
    (h : r.owner ≠ p) : ownerCount (r :: rest) p = ownerCount rest p := by
  unfold ownerCount
  simp [List.filter_cons, h]

/-- Each slot adds at most one region owned by its player, so the final count
per player is bounded by the occurrences of the player in the slot list. -/
theorem runSlots_ownerCount (ps fuel : Nat) :
    ∀ (slots : List (Nat × Nat)) (board : GenBoard) (rng : Rng) (b' : GenBoard) (rng' : Rng),
      runSlots ps fuel slots board rng = .done b' rng' →
      ∀ p, ownerCount b'.regions p ≤
        ownerCount board.regions p + (slots.filter (fun s => s.2 == p)).length := by
  intro slots
  induction slots with
  | nil =>
    intro board rng b' rng' h p
    simp only [runSlots, GenResult.done.injEq] at h
    obtain ⟨rfl, _⟩ := h
    simp
  | cons s rest ih =>
    intro board rng b' rng' h p
    obtain ⟨patchIdx, player⟩ := s
    simp only [runSlots] at h
    cases hplace : placePatchGo player ps ((patchIdx == 0) && (player == 0)) board fuel rng with
    | committed b1 rng1 =>
      rw [hplace] at h
      obtain ⟨patch, hreg, _⟩ :=
        placePatchGo_committed player ps ((patchIdx == 0) && (player == 0)) board fuel rng
          b1 rng1 hplace
      have hstep := ih b1 rng1 b' rng' h p
      rw [hreg, ownerCount_append] at hstep
      rw [List.filter_cons]
      by_cases hpp : (player == p) = true
      · simp [hpp] at hstep ⊢
        omega
      · simp [hpp] at hstep ⊢
        omega
    | skipped rng1 =>
      rw [hplace] at h
      have hstep := ih board rng1 b' rng' h p
      rw [List.filter_cons]
      by_cases hpp : ((patchIdx, player).2 == p) = true <;> simp [hpp] <;> omega
    | fuelOut =>
      rw [hplace] at h
      exact GenResult.noConfusion h

theorem length_filter_flatMap_le {α β : Type} (l : List α) (f : α → List β) (q : β → Bool)
    (h : ∀ a ∈ l, ((f a).filter q).length ≤ 1) :
    ((l.flatMap f).filter q).length ≤ l.length := by
  induction l with
  | nil => simp
  | cons a t ih =>
    rw [List.flatMap_cons, List.filter_append, List.length_append, List.length_cons]
    have h1 := h a (List.mem_cons_self _ _)
    have h2 := ih (fun b hb => h b (List.mem_cons_of_mem _ hb))
    omega

theorem length_le_one_of_all_eq (l : List Nat) (p : Nat) (hnd : l.Nodup)
    (hall : ∀ x ∈ l, x = p) : l.length ≤ 1 := by
  match l with
  | [] => simp
  | [x] => simp
  | x :: y :: t =>
    exfalso
    have hx : x = p := hall x (by simp)
    have hy : y = p := hall y (by simp)
    have := (List.nodup_cons.1 hnd).1
    rw [hx, hy] at this
    exact this (by simp)

/-- Each player occurs at most `NUMBER_OF_PATCHES` times in the slot list. -/
theorem slotList_filter_le (n p : Nat) :
    ((slotList n).filter (fun s => s.2 == p)).length ≤ NUMBER_OF_PATCHES := by
  unfold slotList
  have hbound : ∀ patch ∈ List.range NUMBER_OF_PATCHES,
      (((List.range n).map (fun player => ((patch, player) : Nat × Nat))).filter
        (fun s => s.2 == p)).length ≤ 1 := by
    intro patch _
    rw [List.filter_map, List.length_map]
    apply length_le_one_of_all_eq _ p
    · exact (List.nodup_range n).filter _
    · intro x hx
      have := (List.mem_filter.1 hx).2
      simpa using this
  have := length_filter_flatMap_le (List.range NUMBER_OF_PATCHES)
    (fun patch => (List.range n).map (fun player => ((patch, player) : Nat × Nat)))
    (fun s => s.2 == p) hbound
  simpa using this

theorem slotList_player_lt (n : Nat) : ∀ s ∈ slotList n, s.2 < n := by
  intro s hs
  unfold slotList at hs
  obtain ⟨patch, _, hsin⟩ := List.mem_flatMap.1 hs
  obtain ⟨pl, hpl, rfl⟩ := List.mem_map.1 hsin
  simpa using List.mem_range.1 hpl

/-- Committed regions carry the owning slot player, so all owners stay below
the player count. -/
theorem runSlots_owner_lt (ps fuel n : Nat) :
    ∀ (slots : List (Nat × Nat)) (board : GenBoard) (rng : Rng) (b' : GenBoard) (rng' : Rng),
      (∀ s ∈ slots, s.2 < n) → (∀ r ∈ board.regions, r.owner < n) →
      runSlots ps fuel slots board rng = .done b' rng' →
      ∀ r ∈ b'.regions, r.owner < n := by
  intro slots
  induction slots with
  | nil =>
    intro board rng b' rng' _ hall h
    simp only [runSlots, GenResult.done.injEq] at h
    obtain ⟨rfl, _⟩ := h
    exact hall
  | cons s rest ih =>
    intro board rng b' rng' hslots hall h
    obtain ⟨patchIdx, player⟩ := s
    simp only [runSlots] at h
    cases hplace : placePatchGo player ps ((patchIdx == 0) && (player == 0)) board fuel rng with
    | committed b1 rng1 =>
      rw [hplace] at h
      obtain ⟨patch, hreg, _⟩ :=
        placePatchGo_committed player ps ((patchIdx == 0) && (player == 0)) board fuel rng
          b1 rng1 hplace
      refine ih b1 rng1 b' rng' (fun s hs => hslots s (List.mem_cons_of_mem _ hs)) ?_ h
      intro r hr
      rw [hreg] at hr
      rcases List.mem_append.1 hr with h1 | h1
      · exact hall r h1
      · have : r = ⟨patch, player, 0⟩ := by simpa using h1
        rw [this]
        exact hslots (patchIdx, player) (List.mem_cons_self _ _)
    | skipped rng1 =>
      rw [hplace] at h
      exact ih board rng1 b' rng' (fun s hs => hslots s (List.mem_cons_of_mem _ hs)) hall h
    | fuelOut =>
      rw [hplace] at h
      exact GenResult.noConfusion h

theorem budLookup_budInsert (m : Budget) (pKey v q : Nat) :
    budLookup (budInsert m pKey v) q = if (pKey == q) = true then some v else budLookup m q := by
  unfold budLookup budInsert
  by_cases h : (pKey == q) = true
  · rw [if_pos h, List.find?_cons_of_pos _ (by simpa using h)]
    rfl
  · rw [if_neg h, List.find?_cons_of_neg _ (by simpa using h)]

theorem budLookup_mapRange (l : List Nat) (k p : Nat) :
    budLookup (l.map (fun q => (q, k))) p = if p ∈ l then some k else none := by
  induction l with
  | nil => simp [budLookup]
  | cons a t ih =>
    simp only [List.map_cons]
    by_cases h : (a == p) = true
    · have ha : a = p := by simpa using h
      unfold budLookup
      rw [List.find?_cons_of_pos _ (by simpa using h)]
      rw [if_pos (by rw [ha]; exact List.mem_cons_self _ _)]
      rfl
    · have ha : a ≠ p := by simpa using h
      unfold budLookup at ih ⊢
      rw [List.find?_cons_of_neg _ (by simpa using h), ih]
      by_cases hm : p ∈ t
      · rw [if_pos hm, if_pos (List.mem_cons_of_mem _ hm)]
      · rw [if_neg hm, if_neg (by
          intro hcon
          rcases List.mem_cons.1 hcon with h1 | h1
          · exact ha h1.symm
          · exact hm h1)]

theorem budLookup_initBudget (n p : Nat) :
    budLookup (initBudget n) p =
      if p < n then some (NUMBER_OF_PATCHES * 4) else none := by
  unfold initBudget
  rw [budLookup_mapRange]
  by_cases h : p < n
  · rw [if_pos (List.mem_range.2 h), if_pos h]
  · rw [if_neg (fun hc => h (List.mem_range.1 hc)), if_neg h]

/-- The allocation loop succeeds and assigns 1-3 dice per region whenever each
present budget exceeds three dice per remaining region of that owner plus 16;
final budgets stay at or above 16. -/
theorem allocGo_spec (regions : List GenRegion) :
    ∀ (budget : Budget) (rng : Rng),
      (∀ p bp, budLookup budget p = some bp → 3 * ownerCount regions p + 16 ≤ bp) →
      (∀ r ∈ regions, (budLookup budget r.owner).isSome = true) →
      ∃ out : List GenRegion × Budget × Rng,
        allocGo regions budget rng = some out ∧
        (∀ r ∈ out.1, 1 ≤ r.number_of_dice ∧ r.number_of_dice ≤ 3) ∧
        (∀ p bp, budLookup out.2.1 p = some bp → 16 ≤ bp) := by
  induction regions with
  | nil =>
    intro budget rng h1 _
    refine ⟨([], budget, rng), rfl, by simp, fun p bp hbp => ?_⟩
    have := h1 p bp hbp
    have h0 : ownerCount ([] : List GenRegion) p = 0 := rfl
    omega
  | cons r rest ih =>
    intro budget rng h1 h2
    have hs := h2 r (List.mem_cons_self _ _)
    obtain ⟨b, hb⟩ := Option.isSome_iff_exists.1 hs
    have hcnt : 3 * ownerCount (r :: rest) r.owner + 16 ≤ b := h1 _ _ hb
    rw [ownerCount_cons_self] at hcnt
    have hb4 : Nat.min 4 b = 4 := Nat.min_eq_left (by omega)
    have hg : 1 < Nat.min 4 b := by omega
    have hd1 : 1 ≤ genRangeNat 1 (Nat.min 4 b) (rngNext rng).1 := genRangeNat_le 1 _ _
    have hd4 : genRangeNat 1 (Nat.min 4 b) (rngNext rng).1 < Nat.min 4 b :=
      genRangeNat_lt 1 _ _ hg
    have h1' : ∀ p bp,
        budLookup (budInsert budget r.owner
          (b - genRangeNat 1 (Nat.min 4 b) (rngNext rng).1)) p = some bp →
        3 * ownerCount rest p + 16 ≤ bp := by
      intro p bp hbp
      rw [budLookup_budInsert] at hbp
      by_cases hpo : (r.owner == p) = true
      · rw [if_pos hpo] at hbp
        have hpeq : r.owner = p := by simpa using hpo
        have hbp' : bp = b - genRangeNat 1 (Nat.min 4 b) (rngNext rng).1 :=
          (Option.some.injEq _ _ ▸ hbp).symm
        rw [← hpeq, hbp']
        omega
      · rw [if_neg hpo] at hbp
        have hpne : r.owner ≠ p := by simpa using hpo
        have := h1 p bp hbp
        rw [ownerCount_cons_ne _ _ _ hpne] at this
        exact this
    have h2' : ∀ r' ∈ rest,
        (budLookup (budInsert budget r.owner
          (b - genRangeNat 1 (Nat.min 4 b) (rngNext rng).1)) r'.owner).isSome = true := by
      intro r' hr'
      rw [budLookup_budInsert]
      by_cases hpo : (r.owner == r'.owner) = true
      · rw [if_pos hpo]
        rfl
      · rw [if_neg hpo]
        exact h2 r' (List.mem_cons_of_mem _ hr')
    obtain ⟨out0, halloc, hdice, hbud⟩ :=
      ih (budInsert budget r.owner (b - genRangeNat 1 (Nat.min 4 b) (rngNext rng).1))
        (rngNext rng).2 h1' h2'
    obtain ⟨rs0, bud0, rng0⟩ := out0
    refine ⟨({ r with number_of_dice := genRangeNat 1 (Nat.min 4 b) (rngNext rng).1 } :: rs0,
      bud0, rng0), ?_, ?_, hbud⟩
    · simp only [allocGo]
      rw [hb]
      simp only []
      rw [if_pos hg, halloc]
    · intro r' hr'
      rcases List.mem_cons.1 hr' with h1r | h1r
      · rw [h1r]
        refine ⟨hd1, ?_⟩
        show genRangeNat 1 (Nat.min 4 b) (rngNext rng).1 ≤ 3
        omega
      · exact hdice r' h1r

/-- C10: for 2-8 players the dice-allocation loop of `generate_board` never
draws from an empty range. The slot loops give each player at most
`NUMBER_OF_PATCHES` regions, all owned by players below `n`; under those bounds
allocation from the 64-dice budgets always succeeds, every assignment takes 1-3
dice (never 4), and every remaining budget stays at or above 16, so
`min(4, budget)` is always 4. -/
theorem c10_allocation_never_panics :
    (∀ (n fuel : Nat) (rng : Rng) (b : GenBoard) (rng' : Rng),
        runSlots (patchSizeOf n) fuel (slotList n) ⟨[], []⟩ rng = .done b rng' →
        (∀ p, ownerCount b.regions p ≤ NUMBER_OF_PATCHES) ∧
        (∀ r ∈ b.regions, r.owner < n)) ∧
    (∀ (regions : List GenRegion) (n : Nat) (rng : Rng),
        2 ≤ n → n ≤ 8 →
        (∀ p, ownerCount regions p ≤ NUMBER_OF_PATCHES) →
        (∀ r ∈ regions, r.owner < n) →
        ∃ out : List GenRegion × Budget × Rng,
          allocGo regions (initBudget n) rng = some out ∧
          (∀ r ∈ out.1, 1 ≤ r.number_of_dice ∧ r.number_of_dice ≤ 3) ∧
          (∀ p bp, budLookup out.2.1 p = some bp → 16 ≤ bp)) := by
  constructor
  · intro n fuel rng b rng' h
    constructor
    · intro p
      have hcount := runSlots_ownerCount (patchSizeOf n) fuel (slotList n) ⟨[], []⟩ rng
        b rng' h p
      have h0 : ownerCount (⟨[], []⟩ : GenBoard).regions p = 0 := rfl
      have hct := slotList_filter_le n p
      omega
    · exact runSlots_owner_lt (patchSizeOf n) fuel n (slotList n) ⟨[], []⟩ rng b rng'
        (slotList_player_lt n) (by intro r hr; simp at hr) h
  · intro regions n rng _ _ hcnt howner
    apply allocGo_spec regions (initBudget n) rng
    · intro p bp hbp
      rw [budLookup_initBudget] at hbp
      by_cases hpn : p < n
      · rw [if_pos hpn] at hbp
        have hbp' : bp = NUMBER_OF_PATCHES * 4 := (Option.some.injEq _ _ ▸ hbp).symm
        have hc := hcnt p
        have hnp : NUMBER_OF_PATCHES = 16 := rfl
        omega
      · rw [if_neg hpn] at hbp
        exact absurd hbp (by simp)
    · intro r hr
      rw [budLookup_initBudget, if_pos (howner r hr)]
      rfl

/-- C10 witness: the concrete eight-player board of `trace8` satisfies the slot
bounds, and its allocation succeeds with 1-3 dice per region. -/
theorem c10_witness :
    (runSlots (patchSizeOf 8) 9 (slotList 8) ⟨[], []⟩ trace8 = .done board8 [0, 0, 0] ∧
      (∀ p, ownerCount board8.regions p ≤ NUMBER_OF_PATCHES) ∧
      (∀ r ∈ board8.regions, r.owner < 8)) ∧
    (2 ≤ 8 ∧ (8 : Nat) ≤ 8 ∧
      ∃ out : List GenRegion × Budget × Rng,
        allocGo board8.regions (initBudget 8) [0, 0, 0] = some out ∧
        (∀ r ∈ out.1, 1 ≤ r.number_of_dice ∧ r.number_of_dice ≤ 3) ∧
        (∀ p bp, budLookup out.2.1 p = some bp → 16 ≤ bp)) := by
  have hrun : runSlots (patchSizeOf 8) 9 (slotList 8) ⟨[], []⟩ trace8 =
      .done board8 [0, 0, 0] := by rfl
  have happ := c10_allocation_never_panics.1 8 9 trace8 board8 [0, 0, 0] hrun
  refine ⟨⟨hrun, happ.1, happ.2⟩, ⟨by decide, by decide, ?_⟩⟩
  exact c10_allocation_never_panics.2 board8.regions 8 [0, 0, 0] (by decide) (by decide)
    happ.1 happ.2

end StackRankDice
